import Mathlib

/-!
# agent-top: event-correlation and timeline-compression engine, shallow embedding

This file embeds the correlation / timeline / Gantt core of
`src/agent_top/__init__.py` in Lean 4 and proves the testable properties of
the specification against it.

Modelling conventions:

* Timestamps in the Python code are ISO strings of one uniform format.  The
  code compares them both as raw strings (the correlation windows) and as
  parsed datetimes (Task pairing deltas, the Gantt compressor).  We model a
  timestamp as `Option ℚ`: `none` stands for an empty or missing string
  (falsy in Python, sorting below every well-formed timestamp) and `some q`
  for a well-formed timestamp denoting the instant `q` in seconds.  For
  strings of one uniform ISO format, Python's lexicographic string order
  agrees with the chronological order, which is what `tsLe`/`tsLt` encode.
* Python floats are modelled as `ℚ`; `int(x)` truncation is `pyInt`.
* SQL `NULL` for `stopped_at` is `Option ℚ`'s `none`.
* Python dicts keyed by strings are modelled as functions `String → _`
  updated pointwise (last write wins, as in Python).
-/

namespace AgentTop

/-- A timestamp field: `none` = empty/missing string, `some q` = a
well-formed ISO timestamp denoting `q` seconds. -/
abbrev Ts := Option ℚ

/-- Python string `≤` restricted to `{""} ∪` well-formed timestamps:
`""` sorts below everything, well-formed timestamps chronologically. -/
def tsLe : Ts → Ts → Prop
  | none, _ => True
  | some _, none => False
  | some a, some b => a ≤ b

/-- Python string `<` on timestamp fields. -/
def tsLt : Ts → Ts → Prop
  | none, none => False
  | none, some _ => True
  | some _, none => False
  | some a, some b => a < b

instance : DecidableRel tsLe := fun a b => by
  cases a <;> cases b <;> simp [tsLe] <;> infer_instance

instance : DecidableRel tsLt := fun a b => by
  cases a <;> cases b <;> simp [tsLt] <;> infer_instance

theorem tsLe_total (a b : Ts) : tsLe a b ∨ tsLe b a := by
  cases a <;> cases b <;> simp [tsLe] <;> exact le_total _ _

theorem tsLe_trans {a b c : Ts} (h₁ : tsLe a b) (h₂ : tsLe b c) : tsLe a c := by
  cases a <;> cases b <;> cases c <;> simp_all [tsLe] <;> exact le_trans h₁ h₂

theorem tsLe_refl (a : Ts) : tsLe a a := by
  cases a <;> simp [tsLe]

theorem not_tsLt_iff {a b : Ts} : ¬ tsLt a b ↔ tsLe b a := by
  cases a <;> cases b <;> simp [tsLt, tsLe]

theorem not_tsLe_iff {a b : Ts} : ¬ tsLe a b ↔ tsLt b a := by
  cases a <;> cases b <;> simp [tsLt, tsLe]

/-- Python `int(x)`: truncation toward zero. -/
def pyInt (q : ℚ) : ℤ := if 0 ≤ q then ⌊q⌋ else ⌈q⌉

theorem pyInt_of_nonneg {q : ℚ} (h : 0 ≤ q) : pyInt q = ⌊q⌋ := by
  simp [pyInt, h]

/-- Python `needle in hay` substring test, for a nonempty needle:
`hay.splitOn needle` has more than one piece iff `needle` occurs. -/
def containsSub (hay needle : String) : Bool := (hay.splitOn needle).length > 1

/-- Strip `old` from the front of a character list, returning the rest. -/
def dropPre : List Char → List Char → Option (List Char)
  | [], l => some l
  | _, [] => none
  | o :: os, c :: cs => if c = o then dropPre os cs else none

/-- Structural worker for Python `str.replace`, fueled by the input
length (each step consumes at least one character). -/
def replaceFuel (old new : List Char) : ℕ → List Char → List Char
  | 0, l => l
  | fuel + 1, l =>
    match l with
    | [] => []
    | c :: rest =>
      match (if old ≠ [] then dropPre old l else none) with
      | some rem => new ++ replaceFuel old new fuel rem
      | none => c :: replaceFuel old new fuel rest

/-- Python `s.replace(old, new)` over the character list. -/
def pyReplace (s old new : String) : String :=
  String.mk (replaceFuel old.data new.data s.data.length s.data)

/-- Python `s.strip()`: drop whitespace from both ends. -/
def pyStrip (s : String) : String :=
  String.mk (((s.data.dropWhile Char.isWhitespace).reverse.dropWhile
    Char.isWhitespace).reverse)

/-- Python `s.startswith(pre)`. -/
def pyStartsWith (s pre : String) : Bool := pre.data.isPrefixOf s.data

/-- Python `str.title()`: uppercase the first letter of every alphabetic
run, lowercase the rest of the run. -/
def titleCase (s : String) : String :=
  (s.data.foldl
    (fun (acc : String × Bool) c =>
      if c.isAlpha then
        (acc.1.push (if acc.2 then c.toLower else c.toUpper), true)
      else (acc.1.push c, false))
    ("", false)).1

/-- `os.path.basename`: the part after the last `/`. -/
def basename (p : String) : String := (p.splitOn "/").getLastD ""

/-- `TOOL_NAMES` constant of the source. -/
def TOOL_NAMES : List (String × String) :=
  [("Read", "Read file"), ("Write", "Write file"), ("Edit", "Edit file"),
   ("Bash", "Run command"), ("Grep", "Search code"), ("Glob", "Find files"),
   ("WebFetch", "Fetch URL"), ("WebSearch", "Web search"),
   ("AskUserQuestion", "Ask user"), ("TaskCreate", "Create task"),
   ("TaskUpdate", "Update task"), ("TaskList", "List tasks"),
   ("TaskGet", "Get task"), ("EnterWorktree", "Create worktree"),
   ("EnterPlanMode", "Enter plan mode"), ("ExitPlanMode", "Exit plan mode"),
   ("NotebookEdit", "Edit notebook"), ("SendMessage", "Send message"),
   ("TeamCreate", "Create team"), ("Task", "Spawn agent"),
   ("Skill", "Run skill")]

/-- `friendly_tool(name, label)`: human-readable tool description. -/
def friendly_tool (name : String) (label : String) : String :=
  let base0 := ((TOOL_NAMES.lookup name).getD "")
  let base1 :=
    if base0 = "" ∧ name.startsWith "mcp__" then
      let parts := name.splitOn "__"
      if parts.length ≥ 3 then
        let server := titleCase (((parts.getD 1 "").replace "claude_ai_" "").replace "_" " ")
        let method := (parts.getD 2 "").replace "_" " "
        server ++ ": " ++ method
      else base0
    else base0
  let base := if base1 = "" then name else base1
  if label ≠ "" ∧ label ≠ name then
    if containsSub label "/" then base ++ ": " ++ basename label
    else label
  else base

/-- `short_prompt(p, maxlen)`. -/
def short_prompt (p : String) (maxlen : ℕ) : String :=
  if p = "" then ""
  else
    let q := pyStrip (pyReplace p "\n" " ")
    if pyStartsWith q "<" then ""
    else if q.data.length > maxlen then String.mk (q.data.take maxlen) ++ ".." else q

/-- Zero-padded two-digit rendering used by `{s:02d}`. -/
def pad2 (n : ℕ) : String := if n < 10 then "0" ++ toString n else toString n

/-- `fmt_dur(start_str, end_str)`, with `now` supplied for a running agent.
A missing/unparseable start yields `"?"` (the `except` branch). -/
def fmt_dur (startTs : Ts) (endTs : Option ℚ) (now : ℚ) : String :=
  match startTs with
  | none => "?"
  | some s =>
    let e := endTs.getD now
    let secs : ℕ := (max 0 (pyInt (e - s))).toNat
    if secs < 60 then toString secs ++ "s"
    else
      let m := secs / 60
      let sec := secs % 60
      if m < 60 then toString m ++ "m" ++ pad2 sec ++ "s"
      else toString (m / 60) ++ "h" ++ pad2 (m % 60) ++ "m"

/-! ## Data model: rows from the event store -/

/-- A row of `session_prompts[sid]`: `prompt` text and `created_at`. -/
structure PromptRow where
  prompt : String
  created_at : Ts
  deriving DecidableEq

/-- A row of `session_tools[sid]` / `tool_events[sid]`. The opaque
`tool_input` / `tool_response` payloads play no role in correlation,
timeline ordering or Gantt compression and are left out. -/
structure ToolRow where
  tool_name : String
  tool_label : String
  created_at : Ts
  duration_ms : Option ℚ
  is_error : Bool
  cwd : String
  deriving DecidableEq

/-- A row of the `agent` table (`running_agents` / `completed_agents`).
`stopped_at = none` is SQL `NULL` (agent still running). -/
structure AgentRow where
  agent_id : String
  agent_type : String
  session_id : String
  cwd : String
  started_at : Ts
  stopped_at : Option ℚ
  deriving DecidableEq

/-! ## Timeline events

`_draw_viz_tree` builds dict events with keys `ts`, `kind`, `text` plus
underscore-prefixed annotations.  We model them as one structure; the
annotation fields default to the values an un-annotated dict behaves as. -/

/-- The `kind` tag of a timeline event. -/
inductive Kind where
  | prompt
  | tool
  | agentGroup
  deriving DecidableEq

/-- A flat timeline event (`dict` in the source).  `tool_name`, `cwd`,
`duration_ms`, `is_error` model `_tool_name`, `_cwd`, `_duration_ms`,
`_is_error`; `agent_id`, `child_count`, `running` the agent-group keys;
`collapsed`, `under_agent`, `prompt_key`, `group` the annotations added
during expansion. -/
structure Ev where
  ts : Ts
  kind : Kind
  text : String
  tool_name : String := ""
  cwd : String := ""
  duration_ms : Option ℚ := none
  is_error : Bool := false
  agent_id : String := ""
  child_count : ℕ := 0
  running : Bool := false
  collapsed : Bool := false
  under_agent : Bool := false
  prompt_key : Ts := none
  group : ℤ := 0
  deriving DecidableEq

instance : Inhabited Ev := ⟨{ ts := none, kind := Kind.tool, text := "" }⟩

/-- A node of the merged list: the event itself plus, for agent groups,
its `_children` list of owned tool events. -/
structure MNode where
  ev : Ev
  children : List Ev := []
  deriving DecidableEq

/-- The timeline entry built from a prompt row (`_draw_viz_tree`), or
`none` when the prompt text starts with `<` and the row is skipped. -/
def promptEv (p : PromptRow) : Option Ev :=
  let t := pyStrip (pyReplace p.prompt "\n" " ")
  if pyStartsWith t "<" then none
  else some { ts := p.created_at, kind := Kind.prompt, text := t }

/-- The timeline entry built from a tool row (`_draw_viz_tree`). -/
def toolEv (t : ToolRow) : Ev :=
  { ts := t.created_at
    kind := Kind.tool
    text := friendly_tool t.tool_name t.tool_label
    tool_name := t.tool_name
    cwd := t.cwd
    duration_ms := t.duration_ms
    is_error := t.is_error }

/-- The initial `timeline` list of `_draw_viz_tree`: prompt entries then
tool entries, in input order. -/
def timeline0 (prompts : List PromptRow) (tools : List ToolRow) : List Ev :=
  prompts.filterMap promptEv ++ tools.map toolEv

/-! ## Correlator: `_match_tools_to_agents` -/

/-- The `kind == "tool"` filter at the top of `_match_tools_to_agents`. -/
def kindTools (tools : List Ev) : List Ev :=
  tools.filter (fun t => decide (t.kind = Kind.tool))

/-- The session-scoped agent list. -/
def sessionAgents (agents : List AgentRow) (sid : String) : List AgentRow :=
  agents.filter (fun a => decide (a.session_id = sid))

/-- The time-window test of the ownership loop: agent `a`'s window
contains `t` iff `started_at` is nonempty, `t_ts >= a_start`, and
`a_stop is None or t_ts <= a_stop`.  Note the second bound is inclusive. -/
def isCandidate (t : Ev) (a : AgentRow) : Prop :=
  a.started_at ≠ none ∧ tsLe a.started_at t.ts ∧
    (a.stopped_at = none ∨ tsLe t.ts a.stopped_at)

instance (t : Ev) (a : AgentRow) : Decidable (isCandidate t a) := by
  unfold isCandidate; infer_instance

/-- Python `max(candidates, key=started_at)`: first maximum wins. -/
def maxByStart (a : AgentRow) (rest : List AgentRow) : AgentRow :=
  rest.foldl (fun best x => if tsLt best.started_at x.started_at then x else best) a

/-- The destination of one non-`Task` tool event in the ownership loop:
`some aid` when appended to `agent_tools[aid]`, `none` when appended to
`unmatched`.  The loop body depends only on the event and the session's
agents, so the dict-append loop is embedded as this per-event choice
followed by per-key filtering. -/
def assignTool (sess : List AgentRow) (t : Ev) : Option String :=
  let candidates := sess.filter (fun a => decide (isCandidate t a))
  match candidates with
  | [] => none
  | [a] => some a.agent_id
  | a :: _ :: _ =>
    let cwdMatch := candidates.filter (fun b => decide (b.cwd ≠ "" ∧ b.cwd = t.cwd))
    match cwdMatch with
    | [b] => some b.agent_id
    | _ => some (maxByStart a candidates.tail).agent_id

/-- The non-`Task` tool events the ownership loop distributes. -/
def step2Tools (tools : List Ev) : List Ev :=
  tools.filter (fun t => decide (t.tool_name ≠ "Task"))

/-- `agent_tools` dict as a function: the tools assigned to `aid`, in
input order (the order the loop appends them). -/
def agentToolsFn (sess : List AgentRow) (tools : List Ev) : String → List Ev :=
  fun aid => (step2Tools tools).filter (fun t => decide (assignTool sess t = some aid))

/-- The `unmatched` list of the ownership loop. -/
def unmatchedOf (sess : List AgentRow) (tools : List Ev) : List Ev :=
  (step2Tools tools).filter (fun t => decide (assignTool sess t = none))

/-! ### Step 1: pairing `Task` tool events to agents -/

/-- `task_pool`: the `Task`-named tool events, in input order. -/
def taskPool (tools : List Ev) : List Ev :=
  tools.filter (fun t => decide (t.tool_name = "Task"))

/-- Python tuple `<` on `(delta, -type_bonus)` scores. -/
def scoreLt (s₁ s₂ : ℚ × ℤ) : Prop :=
  s₁.1 < s₂.1 ∨ (s₁.1 = s₂.1 ∧ s₁.2 < s₂.2)

instance : DecidableRel scoreLt := fun _ _ => by
  unfold scoreLt; infer_instance

/-- Python `abs` on a rational. -/
def absQ (q : ℚ) : ℚ := if q < 0 then -q else q

theorem absQ_eq_abs (q : ℚ) : absQ q = |q| := by
  unfold absQ
  by_cases h : q < 0
  · rw [if_pos h, abs_of_neg h]
  · rw [if_neg h, abs_of_nonneg (not_lt.mp h)]

/-- `abs((t2 - t1).total_seconds())` after `datetime.fromisoformat` on both
strings; `none` is the `except: continue` branch. -/
def deltaOf (ttTs aStart : Ts) : Option ℚ :=
  match ttTs, aStart with
  | some t1, some t2 => some (absQ (t2 - t1))
  | _, _ => none

/-- `type_bonus`: 1 if the agent type appears (case-insensitively) in the
`Task` event's text. -/
def typeBonus (aType tText : String) : ℤ :=
  if aType ≠ "" ∧ containsSub tText.toLower aType.toLower then 1 else 0

/-- One iteration of the inner candidate loop of the Task-pairing step:
skip used or out-of-range entries, then keep the lexicographically better
`(delta, -type_bonus)` score. -/
def bestTaskStep (agent : AgentRow) (used : Finset ℕ)
    (acc : (ℚ × ℤ) × Option (ℕ × Ev)) (p : ℕ × Ev) : (ℚ × ℤ) × Option (ℕ × Ev) :=
  if p.1 ∈ used then acc
  else if p.2.ts = none ∨ agent.started_at = none ∨ tsLt agent.started_at p.2.ts then acc
  else
    match deltaOf p.2.ts agent.started_at with
    | none => acc
    | some delta =>
      if delta ≥ acc.1.1 ∧ acc.2 ≠ none then acc
      else
        let score : ℚ × ℤ := (delta, -(typeBonus agent.agent_type p.2.text))
        if scoreLt score acc.1 then (score, some p) else acc

/-- The inner candidate loop of the Task-pairing step for one agent:
fold over the enumerated `task_pool` carrying `(best_score, best_task)`,
started at `((6, 0), none)`. -/
def bestTaskFold (agent : AgentRow) (used : Finset ℕ) (pool : List (ℕ × Ev)) :
    (ℚ × ℤ) × Option (ℕ × Ev) :=
  pool.foldl (bestTaskStep agent used) ((6, 0), none)

/-- Accumulator of the outer Task-pairing loop: the `agent_labels` dict,
the `used_tasks` set, and (for specification purposes, mirroring the
`used_tasks.add` / label-assignment bookkeeping) the list of
(agent, claimed pool index, claimed Task event) triples. -/
structure Step1Acc where
  labels : String → Option String
  used : Finset ℕ
  claims : List (AgentRow × ℕ × Ev)

/-- One iteration of the outer Task-pairing loop. -/
def step1Step (pool : List (ℕ × Ev)) (acc : Step1Acc) (agent : AgentRow) : Step1Acc :=
  match (bestTaskFold agent acc.used pool).2 with
  | none => acc
  | some (i, tt) =>
    { labels := fun aid => if aid = agent.agent_id then some tt.text else acc.labels aid
      used := insert i acc.used
      claims := acc.claims ++ [(agent, i, tt)] }

/-- `sorted(session_agents, key=started_at)` (stable). -/
def sortedAgents (sess : List AgentRow) : List AgentRow :=
  List.insertionSort (fun a b => tsLe a.started_at b.started_at) sess

/-- The whole Task-pairing step: agents in ascending `started_at` order,
each claiming its best unclaimed `Task` event. -/
def step1 (tools : List Ev) (sess : List AgentRow) : Step1Acc :=
  (sortedAgents sess).foldl (step1Step (taskPool tools).enum)
    { labels := fun _ => none, used := ∅, claims := [] }

/-- The result triple of `_match_tools_to_agents`. -/
structure MatchResult where
  agentTools : String → List Ev
  agentLabels : String → Option String
  unmatched : List Ev

/-- `_match_tools_to_agents(tools, agents, target_sid)`. -/
def matchToolsToAgents (tools0 : List Ev) (agents : List AgentRow) (sid : String) :
    MatchResult :=
  let tools := kindTools tools0
  let sess := sessionAgents agents sid
  if sess = [] then
    { agentTools := fun _ => [], agentLabels := fun _ => none, unmatched := tools }
  else
    { agentTools := agentToolsFn sess tools
      agentLabels := (step1 tools sess).labels
      unmatched := unmatchedOf sess tools }

/-! ## Timeline Builder: the rest of `_draw_viz_tree` -/

/-- `children`: running agents of the session with a nonempty type. -/
def childrenOf (rAgents : List AgentRow) (sid : String) : List AgentRow :=
  rAgents.filter (fun a => decide (a.session_id = sid ∧ a.agent_type ≠ ""))

/-- `completed`: completed agents of the session with a nonempty type,
first five (the `[:5]` slice; `c_agents` arrive most-recently-stopped
first from the store). -/
def completedOf (cAgents : List AgentRow) (sid : String) : List AgentRow :=
  (cAgents.filter (fun a => decide (a.session_id = sid ∧ a.agent_type ≠ ""))).take 5

/-- `raw_labels`: the Correlator label of each agent, falling back to its
`agent_type`. -/
def rawLabels (labels : String → Option String) (l : List AgentRow) : List String :=
  l.map (fun a => (labels a.agent_id).getD a.agent_type)

/-- `label_counts` dict as a function. -/
def labelCounts (raws : List String) : String → ℕ := fun s => raws.count s

/-- The `label_seq` loop producing the display labels: a label occurring
more than once gets ` #n` appended, `n` counting up per label in list
order; a unique label is unchanged. -/
def displayLabels (raws : List String) : List String :=
  (raws.foldl
    (fun (acc : List String × (String → ℕ)) lbl =>
      if labelCounts raws lbl > 1 then
        let s := acc.2 lbl
        (acc.1 ++ [lbl ++ " #" ++ toString s],
         fun x => if x = lbl then s + 1 else acc.2 x)
      else (acc.1 ++ [lbl], acc.2))
    ([], fun _ => 1)).1

/-- One `agent_group` merged-list node, built from an agent, its display
label and its owned tools. -/
def agentGroupNode (a : AgentRow) (displayLabel : String) (aTools : List Ev)
    (running : Bool) (now : ℚ) : MNode :=
  { ev := { ts := a.started_at
            kind := Kind.agentGroup
            text := displayLabel ++ "  " ++ fmt_dur a.started_at a.stopped_at now
            agent_id := a.agent_id
            child_count := aTools.length
            running := running }
    children := aTools }

/-- `agent_group_events`: one node per agent of `children ++ completed`,
with disambiguated labels. -/
def agentGroupEvents (rAgents cAgents : List AgentRow) (sid : String)
    (agentTools : String → List Ev) (labels : String → Option String)
    (now : ℚ) : List MNode :=
  let childs := childrenOf rAgents sid
  let allAgents := childs ++ completedOf cAgents sid
  let disp := displayLabels (rawLabels labels allAgents)
  (allAgents.zip disp).map
    (fun p => agentGroupNode p.1 p.2 (agentTools p.1.agent_id)
      (decide (p.1 ∈ childs)) now)

/-- The sort key comparison of `merged.sort(key=ts)`. -/
def mnLe (x y : MNode) : Prop := tsLe x.ev.ts y.ev.ts

instance : DecidableRel mnLe := fun _ _ => by
  unfold mnLe; infer_instance

instance : IsTotal MNode mnLe := ⟨fun a b => tsLe_total a.ev.ts b.ev.ts⟩

instance : IsTrans MNode mnLe := ⟨fun _ _ _ h₁ h₂ => tsLe_trans h₁ h₂⟩

/-- The `merged` list: prompts, unmatched tools, agent groups, sorted
ascending by `ts` (stable, like Python `list.sort`). -/
def mergedOf (prompts : List Ev) (unmatched : List Ev) (groups : List MNode) :
    List MNode :=
  List.insertionSort mnLe
    ((prompts.filter (fun e => decide (e.kind = Kind.prompt))).map
        (fun e => ({ ev := e } : MNode))
      ++ unmatched.map (fun e => ({ ev := e } : MNode))
      ++ groups)

/-- The prompt-delimited grouping loop of `_draw_viz_tree`:
`cur`/`kids` carry `current_prompt`/`current_children`. -/
def groupsAux (cur : Option MNode) (kids : List MNode) :
    List MNode → List (Option MNode × List MNode)
  | [] => if cur ≠ none ∨ kids ≠ [] then [(cur, kids)] else []
  | ev :: rest =>
    if ev.ev.kind = Kind.prompt then
      (if cur ≠ none ∨ kids ≠ [] then [(cur, kids)] else [])
        ++ groupsAux (some ev) [] rest
    else groupsAux cur (kids ++ [ev]) rest

/-- Grouping plus the final `groups.reverse()` (newest prompt first). -/
def groupsOf (merged : List MNode) : List (Option MNode × List MNode) :=
  (groupsAux none [] merged).reverse

/-- Expansion of one child of an expanded prompt group: an agent group
contributes itself (collapse-annotated) and, when expanded, its owned
tools tagged `_under_agent`; any other child contributes itself. -/
def expandChild (collapsedA : Finset String) (c : MNode) : List Ev :=
  let cEv := c.ev
  if cEv.kind = Kind.agentGroup then
    let isC := cEv.agent_id ∈ collapsedA
    [{ cEv with collapsed := isC }]
      ++ (if isC then [] else c.children.map (fun t => { t with under_agent := true }))
  else [cEv]

/-- Total descendant count of a prompt group (agent groups count as
`1 + child_count`). -/
def totalChildCount (kids : List MNode) : ℕ :=
  kids.foldl
    (fun t c => if c.ev.kind = Kind.agentGroup then t + 1 + c.ev.child_count else t + 1) 0

/-- Expansion of one prompt group into flat timeline events.  A headless
group (`prompt_ev` is `None`) is emitted bare via `timeline.extend`. -/
def expandGroup (collapsedP : Finset Ts) (collapsedA : Finset String)
    (g : Option MNode × List MNode) : List Ev :=
  match g.1 with
  | some pNode =>
    let pEv0 := pNode.ev
    let pk := pEv0.ts
    let pEv := { pEv0 with
      prompt_key := pk
      child_count := totalChildCount g.2
      collapsed := pk ∈ collapsedP }
    [pEv] ++ (if pk ∈ collapsedP then [] else (g.2.map (expandChild collapsedA)).flatten)
  | none => g.2.map (·.ev)

/-- The per-prompt collapse/expand pass over all groups. -/
def expandGroupsAll (collapsedP : Finset Ts) (collapsedA : Finset String)
    (gs : List (Option MNode × List MNode)) : List Ev :=
  (gs.map (expandGroup collapsedP collapsedA)).flatten

/-- The final `_group`-tagging pass: the index of the enclosing prompt
group, `-1` before the first prompt. -/
def tagGroups (tl : List Ev) : List Ev :=
  (tl.foldl
    (fun (acc : List Ev × ℤ) ev =>
      let gi := if ev.kind = Kind.prompt then acc.2 + 1 else acc.2
      (acc.1 ++ [{ ev with group := gi }], gi))
    ([], -1)).1

/-- The whole timeline pipeline of `_draw_viz_tree`, from the session's
rows and the persistent collapse state to the flat display timeline. -/
def drawVizTreeTimeline (prompts : List PromptRow) (tools : List ToolRow)
    (rAgents cAgents : List AgentRow) (sid : String) (now : ℚ)
    (collapsedP : Finset Ts) (collapsedA : Finset String) : List Ev :=
  let tl0 := timeline0 prompts tools
  let mr := matchToolsToAgents tl0 (rAgents ++ cAgents) sid
  let ag := agentGroupEvents rAgents cAgents sid mr.agentTools mr.agentLabels now
  let merged := mergedOf tl0 mr.unmatched ag
  tagGroups (expandGroupsAll collapsedP collapsedA (groupsOf merged))

/-! ## Navigation state: collapse toggles and the Enter handler -/

/-- Python set-membership toggle: `discard` when present, `add` when not. -/
def toggleMem {α : Type} [DecidableEq α] (s : Finset α) (k : α) : Finset α :=
  if k ∈ s then s.erase k else insert k s

/-- The navigation state touched by the Enter/Space handler in `main`
(right-panel focus): the two collapse sets, the expanded-tool index, and
the current flat timeline with the cursor into it. -/
structure UiState where
  collapsedPrompts : Finset Ts
  collapsedAgents : Finset String
  expandedTool : ℤ
  treeTimeline : List Ev
  treeCursor : ℤ

/-- The Enter/Space handler of `main` under right-panel focus: toggle
collapse on the prompt or agent group at the cursor (resetting the
expanded tool), or toggle detail expansion on a tool event. -/
def enterRightFocus (st : UiState) : UiState :=
  if 0 ≤ st.treeCursor ∧ st.treeCursor < st.treeTimeline.length then
    let ev := st.treeTimeline.getD st.treeCursor.toNat default
    if ev.kind = Kind.prompt then
      { st with
        collapsedPrompts := toggleMem st.collapsedPrompts ev.prompt_key
        expandedTool := -1 }
    else if ev.kind = Kind.agentGroup then
      { st with
        collapsedAgents := toggleMem st.collapsedAgents ev.agent_id
        expandedTool := -1 }
    else
      { st with
        expandedTool := if st.expandedTool = st.treeCursor then -1 else st.treeCursor }
  else st

/-! ## Gantt Compressor: `_build_gantt_segments` and `_time_to_col` -/

/-- One compressed active-time segment. -/
structure GanttSeg where
  prompt_text : String
  start : ℚ
  stop : ℚ
  duration_s : ℚ
  offset_s : ℚ
  deriving DecidableEq

/-- The tool scan for `last_activity` in one prompt window: tools whose
start falls in `[seg_start, window_end)` push it to their end time
(`+ duration_ms` when truthy, i.e. present and nonzero). -/
def toolLastActivity (tools : List ToolRow) (segStart windowEnd la0 : ℚ) : ℚ :=
  tools.foldl
    (fun la t =>
      match t.created_at with
      | none => la
      | some ts =>
        if ts < segStart ∨ ts ≥ windowEnd then la
        else
          let tEnd :=
            match t.duration_ms with
            | some d => if d ≠ 0 then ts + d / 1000 else ts
            | none => ts
          max la tEnd)
    la0

/-- The agent scan for `last_activity`: agents overlapping the window
push it to `min(stopped_at or now, window_end)`. -/
def agentLastActivity (agents : List AgentRow) (now segStart windowEnd la0 : ℚ) : ℚ :=
  agents.foldl
    (fun la a =>
      match a.started_at with
      | none => la
      | some aStart =>
        if aStart ≥ windowEnd then la
        else
          match a.stopped_at with
          | some aStop =>
            if aStop ≤ segStart then la else max la (min aStop windowEnd)
          | none => max la (min now windowEnd))
    la0

/-- The prompt loop of `_build_gantt_segments` over the sorted prompts,
threading `cumulative_offset`; returns the segments and the final
cumulative offset (= `total_active_s`). -/
def ganttAux (tools : List ToolRow) (agents : List AgentRow) (now : ℚ) :
    List PromptRow → ℚ → List GanttSeg × ℚ
  | [], cum => ([], cum)
  | p :: rest, cum =>
    match p.created_at with
    | none => ganttAux tools agents now rest cum
    | some segStart =>
      let windowEnd :=
        match rest with
        | [] => now
        | q :: _ => match q.created_at with | none => now | some w => w
      let lastActivity :=
        agentLastActivity agents now segStart windowEnd
          (toolLastActivity tools segStart windowEnd segStart)
      if lastActivity = segStart then ganttAux tools agents now rest cum
      else
        let segEnd := min lastActivity windowEnd
        let d := max 1 (segEnd - segStart)
        let seg : GanttSeg :=
          { prompt_text := short_prompt p.prompt 20
            start := segStart
            stop := segStart + d
            duration_s := d
            offset_s := cum }
        let r := ganttAux tools agents now rest (cum + d)
        (seg :: r.1, r.2)

/-- The sort key comparison of `sorted(prompts, key=created_at)`. -/
def prLe (p q : PromptRow) : Prop := tsLe p.created_at q.created_at

instance : DecidableRel prLe := fun _ _ => by
  unfold prLe; infer_instance

instance : IsTotal PromptRow prLe := ⟨fun a b => tsLe_total a.created_at b.created_at⟩

instance : IsTrans PromptRow prLe := ⟨fun _ _ _ h₁ h₂ => tsLe_trans h₁ h₂⟩

/-- `sorted(prompts, key=created_at)` (stable). -/
def sortedPrompts (prompts : List PromptRow) : List PromptRow :=
  List.insertionSort prLe prompts

/-- `_build_gantt_segments(prompts, tools, agents, now_utc)`: the
compressed segments and `total_active_s`. -/
def buildGanttSegments (prompts : List PromptRow) (tools : List ToolRow)
    (agents : List AgentRow) (now : ℚ) : List GanttSeg × ℚ :=
  if sortedPrompts prompts = [] then ([], 0)
  else ganttAux tools agents now (sortedPrompts prompts) 0

/-- `_time_to_col(dt_val, segments, total_active_s, bar_w)`. -/
def timeToCol (dtVal : ℚ) (segments : List GanttSeg) (totalActive : ℚ)
    (barW : ℤ) : ℤ :=
  if segments = [] ∨ totalActive ≤ 0 then 0
  else
    match segments.find? (fun s => decide (s.start ≤ dtVal ∧ dtVal ≤ s.stop)) with
    | some seg =>
      let localFrac := (dtVal - seg.start) / max (1 / 1000) seg.duration_s
      let globalFrac := (seg.offset_s + localFrac * seg.duration_s) / totalActive
      min (barW - 1) (pyInt (globalFrac * barW))
    | none =>
      match segments.find? (fun s => decide (dtVal < s.start)) with
      | some seg => min (barW - 1) (pyInt (seg.offset_s / totalActive * barW))
      | none => barW - 1

/-! ## Shared helper lemmas -/

theorem toggleMem_toggleMem {α : Type} [DecidableEq α] (s : Finset α) (k : α) :
    toggleMem (toggleMem s k) k = s := by
  unfold toggleMem
  by_cases h : k ∈ s
  · rw [if_pos h, if_neg (Finset.not_mem_erase k s), Finset.insert_erase h]
  · rw [if_neg h, if_pos (Finset.mem_insert_self k s), Finset.erase_insert h]

theorem toggleMem_iterate_even {α : Type} [DecidableEq α] (s : Finset α) (k : α)
    (n : ℕ) : (fun t => toggleMem t k)^[2 * n] s = s := by
  induction n with
  | zero => simp
  | succ m ih =>
    have h2 : (fun t => toggleMem t k)^[2] s = s := toggleMem_toggleMem s k
    rw [show 2 * (m + 1) = 2 * m + 2 by ring, Function.iterate_add_apply, h2, ih]

/-! ## Concrete rows used by witnesses and counterexamples -/

/-- An agent of session `s` with window `[0, 10]`. -/
def agentA : AgentRow :=
  { agent_id := "a1", agent_type := "researcher", session_id := "s", cwd := ""
    started_at := some 0, stopped_at := some 10 }

/-- A non-`Task` tool event timed exactly at `agentA`'s `stopped_at`. -/
def toolAtStop : Ev :=
  { ts := some 10, kind := Kind.tool, text := "r", tool_name := "Read" }

/-- A `Task` tool event strictly after `agentA`'s `started_at`, hence never
claimed by the Task-pairing step. -/
def taskLate : Ev :=
  { ts := some 5, kind := Kind.tool, text := "do research", tool_name := "Task" }

/-! ## C9: double toggling is a no-op -/

/-- C9: applying the collapse toggle twice to the same Prompt timestamp key
(or the same agent id) restores the collapsed-set membership, hence the
rebuilt timeline and its expanded-node count; any even number of identical
toggles leaves the membership unchanged. -/
theorem C9_toggle_double_noop (s : Finset Ts) (sa : Finset String) (k : Ts)
    (ka : String) (n : ℕ) (prompts : List PromptRow) (tools : List ToolRow)
    (rAgents cAgents : List AgentRow) (sid : String) (now : ℚ) :
    toggleMem (toggleMem s k) k = s ∧
    toggleMem (toggleMem sa ka) ka = sa ∧
    (fun t => toggleMem t k)^[2 * n] s = s ∧
    drawVizTreeTimeline prompts tools rAgents cAgents sid now
        (toggleMem (toggleMem s k) k) (toggleMem (toggleMem sa ka) ka)
      = drawVizTreeTimeline prompts tools rAgents cAgents sid now s sa ∧
    (drawVizTreeTimeline prompts tools rAgents cAgents sid now
        (toggleMem (toggleMem s k) k) (toggleMem (toggleMem sa ka) ka)).length
      = (drawVizTreeTimeline prompts tools rAgents cAgents sid now s sa).length := by
  have h1 := toggleMem_toggleMem s k
  have h2 := toggleMem_toggleMem sa ka
  refine ⟨h1, h2, toggleMem_iterate_even s k n, ?_, ?_⟩ <;> rw [h1, h2]

/-! ## C10: collapse toggles reset the expanded-tool index -/

/-- C10: after the Enter handler toggles collapse on a Prompt or AgentGroup
node at the cursor, no tool detail is expanded: the expanded-tool index is
reset to `-1`. -/
theorem C10_toggle_resets_expanded_tool (st : UiState)
    (hcur : 0 ≤ st.treeCursor ∧ st.treeCursor < st.treeTimeline.length)
    (hkind : (st.treeTimeline.getD st.treeCursor.toNat default).kind = Kind.prompt ∨
      (st.treeTimeline.getD st.treeCursor.toNat default).kind = Kind.agentGroup) :
    (enterRightFocus st).expandedTool = -1 := by
  unfold enterRightFocus
  rw [if_pos hcur]
  rcases hkind with h | h
  · rw [if_pos h]
  · rw [if_neg (by rw [h]; intro hx; exact Kind.noConfusion hx), if_pos h]

/-- Witness for C10 at a concrete state: a one-row timeline holding a prompt
node, cursor on it, a tool detail expanded beforehand. -/
theorem C10_witness :
    (enterRightFocus
      { collapsedPrompts := ∅, collapsedAgents := ∅, expandedTool := 0
        treeTimeline := [{ ts := some 0, kind := Kind.prompt, text := "p" }]
        treeCursor := 0 }).expandedTool = -1 :=
  C10_toggle_resets_expanded_tool _ (by decide) (Or.inl (by decide))

/-! ## C4: the agent ownership window boundary -/

/-- C4 (amended): the ownership windows of the correlation step are CLOSED
`[started_at, stopped_at]`, not half-open: a non-`Task` ToolEvent whose
timestamp equals the agent's `stopped_at` IS contained in the window and is
a correlation candidate (for a single-agent session it is assigned to that
agent); a null `stopped_at` removes the upper bound altogether, so the
window extends through the evaluation time (and beyond). -/
theorem C4_window_inclusive_stop (a : AgentRow) (t : Ev) (e : ℚ)
    (hstart : a.started_at ≠ none) (hle : tsLe a.started_at t.ts)
    (hstop : (a.stopped_at = some e ∧ t.ts = some e) ∨ a.stopped_at = none) :
    isCandidate t a ∧ assignTool [a] t = some a.agent_id := by
  have hc : isCandidate t a := by
    refine ⟨hstart, hle, ?_⟩
    rcases hstop with ⟨h1, h2⟩ | h1
    · right
      rw [h1, h2]
      exact le_refl e
    · exact Or.inl h1
  refine ⟨hc, ?_⟩
  unfold assignTool
  simp only [List.filter_cons, List.filter_nil, decide_eq_true hc, if_true]

/-- Witness for C4 at a concrete boundary input: `toolAtStop` is timed at
`agentA`'s `stopped_at` and lands in `agentA`'s bucket. -/
theorem C4_witness :
    isCandidate toolAtStop agentA ∧ assignTool [agentA] toolAtStop = some "a1" :=
  C4_window_inclusive_stop agentA toolAtStop 10 (by decide) (by decide)
    (Or.inl (by decide))

/-- Counterexample to C4 as stated: the claim says an event at exactly
`stopped_at` is NOT a candidate and hence unmatched; the code assigns it to
the agent and leaves `unmatched` empty. -/
theorem C4_counterexample :
    (matchToolsToAgents [toolAtStop] [agentA] "s").agentTools "a1" = [toolAtStop] ∧
    (matchToolsToAgents [toolAtStop] [agentA] "s").unmatched = [] := by
  constructor <;> decide

/-! ## C6: timestamp-to-column mapping -/

/-- C6 (amended): for a timestamp inside a segment (the first such segment,
with `duration_s ≥ 0.001` so the division guard is inert, a nonnegative
offset, positive `total_active_s` and positive width), `_time_to_col`
returns the FLOOR (Python `int` truncation) of
`global_fraction × width` — not the round — clamped above to `width − 1`;
the value is already nonnegative, so it lies in `[0, width−1]`. -/
theorem C6_time_to_col_floor (segments : List GanttSeg) (seg : GanttSeg)
    (t totalActive : ℚ) (w : ℤ)
    (hfind : segments.find? (fun s => decide (s.start ≤ t ∧ t ≤ s.stop)) = some seg)
    (hdur : 1 / 1000 ≤ seg.duration_s) (hoff : 0 ≤ seg.offset_s)
    (htot : 0 < totalActive) (hw : 1 ≤ w) :
    timeToCol t segments totalActive w
      = min (w - 1) ⌊(seg.offset_s + (t - seg.start)) / totalActive * w⌋ ∧
    0 ≤ timeToCol t segments totalActive w ∧
    timeToCol t segments totalActive w ≤ w - 1 := by
  have hne : segments ≠ [] := by
    intro h
    rw [h] at hfind
    exact Option.noConfusion hfind
  have hpred := List.find?_some hfind
  simp only [decide_eq_true_eq] at hpred
  have hd0 : (0 : ℚ) < seg.duration_s := lt_of_lt_of_le (by norm_num) hdur
  have hw0 : (0 : ℚ) ≤ (w : ℚ) := by
    have : (0 : ℤ) ≤ w := le_trans zero_le_one hw
    exact_mod_cast this
  have hgf0 : 0 ≤ (seg.offset_s + (t - seg.start)) / totalActive :=
    div_nonneg (by linarith [hpred.1]) (le_of_lt htot)
  have heval : timeToCol t segments totalActive w
      = min (w - 1) ⌊(seg.offset_s + (t - seg.start)) / totalActive * w⌋ := by
    unfold timeToCol
    rw [if_neg (by push_neg; exact ⟨hne, htot⟩), hfind]
    simp only [max_eq_right hdur]
    rw [div_mul_cancel₀ _ (ne_of_gt hd0),
      pyInt_of_nonneg (mul_nonneg hgf0 hw0)]
  refine ⟨heval, ?_, ?_⟩
  · rw [heval]
    exact le_min (by omega) (Int.floor_nonneg.mpr (mul_nonneg hgf0 hw0))
  · rw [heval]
    exact min_le_left _ _

/-- A concrete segment `[0, 4]` with duration 4 and offset 0. -/
def seg04 : GanttSeg :=
  { prompt_text := "", start := 0, stop := 4, duration_s := 4, offset_s := 0 }

/-- Witness for C6 at a concrete input: segment `[0, 4]`, queried at
`t = 2` with width 3. -/
theorem C6_witness :
    timeToCol 2 [seg04] 4 3
      = min ((3 : ℤ) - 1) ⌊(seg04.offset_s + ((2 : ℚ) - seg04.start)) / 4 * 3⌋ :=
  (C6_time_to_col_floor [seg04] seg04 2 4 3 (by decide) (by norm_num [seg04])
    (by norm_num [seg04]) (by norm_num) (by norm_num)).1

/-- Counterexample to C6 as stated: with one segment `[0, 4]`, width 3 and
`t = 1`, `global_fraction × width = 3/4`; the code truncates to column 0
while the claimed `round`, clamped to `[0, 2]`, gives column 1. -/
theorem C6_counterexample :
    timeToCol 1 [seg04] 4 3
      ≠ max 0 (min ((3 : ℤ) - 1)
          (round ((((0 : ℚ) + ((1 - 0) / 4) * 4) / 4) * 3))) := by
  have hf : ⌊(3 : ℚ) / 4⌋ = 0 := by
    rw [Int.floor_eq_iff]
    norm_num
  have hr : round ((((0 : ℚ) + ((1 - 0) / 4) * 4) / 4) * 3) = 1 := by
    have : (((0 : ℚ) + ((1 - 0) / 4) * 4) / 4) * 3 = 3 / 4 := by norm_num
    rw [this, round_eq, Int.floor_eq_iff]
    norm_num
  have h1 : timeToCol 1 [seg04] 4 3 = 0 := by
    unfold timeToCol
    rw [if_neg (by norm_num)]
    have hfind : [seg04].find? (fun s => decide (s.start ≤ (1 : ℚ) ∧ (1 : ℚ) ≤ s.stop))
        = some seg04 := by
      simp [List.find?, seg04]
    rw [hfind]
    have hmax4 : max ((1 : ℚ) / 1000) (4 : ℚ) = 4 := max_eq_right (by norm_num)
    simp only [seg04, hmax4]
    have harg : ((0 : ℚ) + ((1 : ℚ) - 0) / 4 * 4) / 4 * ((3 : ℤ) : ℚ) = 3 / 4 := by
      push_cast
      norm_num
    rw [harg, pyInt_of_nonneg (by norm_num), hf]
    norm_num
  rw [h1, hr]
  norm_num

/-! ## C8: display-label disambiguation ordinals -/

/-- Recursive characterization of the `label_seq` fold of `_draw_viz_tree`:
`counts` is the global label-count function, `seq` the running
next-ordinal dict. -/
def dispGo (counts : String → ℕ) (seq : String → ℕ) : List String → List String
  | [] => []
  | lbl :: rest =>
    if counts lbl > 1 then
      (lbl ++ " #" ++ toString (seq lbl))
        :: dispGo counts (fun x => if x = lbl then seq lbl + 1 else seq x) rest
    else lbl :: dispGo counts seq rest

theorem displayLabels_foldl_go (raws : List String) :
    ∀ (rest : List String) (out : List String) (seq : String → ℕ),
      (rest.foldl
        (fun (acc : List String × (String → ℕ)) lbl =>
          if labelCounts raws lbl > 1 then
            (acc.1 ++ [lbl ++ " #" ++ toString (acc.2 lbl)],
             fun x => if x = lbl then acc.2 lbl + 1 else acc.2 x)
          else (acc.1 ++ [lbl], acc.2))
        (out, seq)).1 = out ++ dispGo (labelCounts raws) seq rest := by
  intro rest
  induction rest with
  | nil => intro out seq; simp [dispGo]
  | cons lbl rest ih =>
    intro out seq
    by_cases h : labelCounts raws lbl > 1
    · simp only [List.foldl_cons, if_pos h, dispGo, ih, List.append_assoc,
        List.singleton_append]
    · simp only [List.foldl_cons, if_neg h, dispGo, ih, List.append_assoc,
        List.singleton_append]

theorem displayLabels_eq_dispGo (raws : List String) :
    displayLabels raws = dispGo (labelCounts raws) (fun _ => 1) raws := by
  unfold displayLabels
  rw [displayLabels_foldl_go raws raws [] (fun _ => 1)]
  simp

theorem dispGo_length (counts : String → ℕ) :
    ∀ (l : List String) (seq : String → ℕ), (dispGo counts seq l).length = l.length := by
  intro l
  induction l with
  | nil => intro seq; rfl
  | cons lbl rest ih =>
    intro seq
    by_cases h : counts lbl > 1
    · simp [dispGo, if_pos h, ih]
    · simp [dispGo, if_neg h, ih]

theorem dispGo_getD (counts : String → ℕ) :
    ∀ (l : List String) (seq : String → ℕ) (i : ℕ), i < l.length →
      (dispGo counts seq l).getD i ""
        = if counts (l.getD i "") > 1 then
            (l.getD i "") ++ " #"
              ++ toString (seq (l.getD i "") + (l.take i).count (l.getD i ""))
          else l.getD i "" := by
  intro l
  induction l with
  | nil => intro seq i hi; exact absurd hi (Nat.not_lt_zero i)
  | cons lbl rest ih =>
    intro seq i hi
    match i with
    | 0 =>
      by_cases h : counts lbl > 1
      · simp [dispGo, if_pos h]
      · simp [dispGo, if_neg h]
    | (j + 1) =>
      have hj : j < rest.length := Nat.lt_of_succ_lt_succ hi
      have hcnt : ∀ x : String, ((lbl :: rest).take (j + 1)).count x
          = (rest.take j).count x + (if x = lbl then 1 else 0) := by
        intro x
        rw [List.take_succ_cons, List.count_cons]
        by_cases hxl : x = lbl
        · simp [hxl]
        · simp [hxl, Ne.symm hxl]
      by_cases h : counts lbl > 1
      · rw [show dispGo counts seq (lbl :: rest)
            = (lbl ++ " #" ++ toString (seq lbl))
              :: dispGo counts (fun y => if y = lbl then seq lbl + 1 else seq y) rest
            from by rw [dispGo, if_pos h],
          List.getD_cons_succ, List.getD_cons_succ, ih _ j hj, hcnt]
        by_cases hx : counts (rest.getD j "") > 1
        · rw [if_pos hx, if_pos hx]
          congr 2
          by_cases he : rest.getD j "" = lbl
          · rw [he]
            simp only [if_pos (rfl : lbl = lbl), if_true]
            omega
          · simp only [if_neg he]
            omega
        · rw [if_neg hx, if_neg hx]
      · rw [show dispGo counts seq (lbl :: rest)
            = lbl :: dispGo counts seq rest
            from by rw [dispGo, if_neg h],
          List.getD_cons_succ, List.getD_cons_succ, ih _ j hj, hcnt]
        by_cases hx : counts (rest.getD j "") > 1
        · rw [if_pos hx, if_pos hx]
          have he : ¬ rest.getD j "" = lbl := fun hc => h (hc ▸ hx)
          congr 2
          simp only [if_neg he]
          omega
        · rw [if_neg hx, if_neg hx]

/-- C8 (amended): when two or more agents of a session produce the same
display label, the Timeline Builder appends ordinals `#1, #2, …` assigned
in FIRST-SEEN ORDER OVER the `children ++ completed` list — running agents
first (ascending `started_at` as delivered), then at most five completed
agents as delivered most-recently-stopped first — which is NOT in general
ascending by the agents' start times; the ordinal at position `i` is one
plus the number of earlier same-labelled agents in that list, and an agent
whose label is unique receives no ordinal. -/
theorem C8_label_ordinals (rAgents cAgents : List AgentRow) (sid : String)
    (labels : String → Option String) (raws : List String)
    (hraws : raws = rawLabels labels (childrenOf rAgents sid ++ completedOf cAgents sid))
    (i : ℕ) (hi : i < raws.length) :
    (displayLabels raws).length = raws.length ∧
    (labelCounts raws (raws.getD i "") = 1 →
      (displayLabels raws).getD i "" = raws.getD i "") ∧
    (labelCounts raws (raws.getD i "") > 1 →
      (displayLabels raws).getD i ""
        = raws.getD i "" ++ " #"
          ++ toString (1 + (raws.take i).count (raws.getD i ""))) := by
  clear hraws
  rw [displayLabels_eq_dispGo]
  refine ⟨dispGo_length _ raws _, ?_, ?_⟩
  · intro h1
    rw [dispGo_getD _ raws _ i hi, if_neg (by omega)]
  · intro h1
    rw [dispGo_getD _ raws _ i hi, if_pos h1]

/-- A running agent of type `X`, started at 10. -/
def agentRunX : AgentRow :=
  { agent_id := "b", agent_type := "X", session_id := "s", cwd := ""
    started_at := some 10, stopped_at := none }

/-- A completed agent of type `X`, started at 0, stopped at 20. -/
def agentDoneX : AgentRow :=
  { agent_id := "a", agent_type := "X", session_id := "s", cwd := ""
    started_at := some 0, stopped_at := some 20 }

/-- Witness for C8 at a concrete input: two same-labelled agents; the
second in list order receives ordinal `#2`. -/
theorem C8_witness :
    (displayLabels (rawLabels (fun _ => none)
        (childrenOf [agentRunX] "s" ++ completedOf [agentDoneX] "s"))).getD 1 ""
      = (rawLabels (fun _ => none)
          (childrenOf [agentRunX] "s" ++ completedOf [agentDoneX] "s")).getD 1 ""
        ++ " #"
        ++ toString (1 + ((rawLabels (fun _ => none)
            (childrenOf [agentRunX] "s" ++ completedOf [agentDoneX] "s")).take 1).count
            ((rawLabels (fun _ => none)
              (childrenOf [agentRunX] "s" ++ completedOf [agentDoneX] "s")).getD 1 "")) :=
  (C8_label_ordinals [agentRunX] [agentDoneX] "s" (fun _ => none) _ rfl 1
    (by decide)).2.2 (by decide)

/-- Counterexample to C8 as stated: the running agent started at 10 sits
first in the `children ++ completed` list and receives `#1`, while the
completed agent started at 0 — the EARLIER start — receives `#2`; ordinals
are not assigned ascending by start time. -/
theorem C8_counterexample :
    childrenOf [agentRunX] "s" ++ completedOf [agentDoneX] "s"
      = [agentRunX, agentDoneX] ∧
    displayLabels (rawLabels (fun _ => none)
        (childrenOf [agentRunX] "s" ++ completedOf [agentDoneX] "s"))
      = ["X #1", "X #2"] ∧
    tsLt agentDoneX.started_at agentRunX.started_at :=
  ⟨by decide, by decide, by decide⟩

/-! ## C1: the partition property of the Correlator -/

theorem maxByStart_mem : ∀ (l : List AgentRow) (a : AgentRow), maxByStart a l ∈ a :: l := by
  intro l
  induction l with
  | nil => intro a; simp [maxByStart]
  | cons x xs ih =>
    intro a
    have hstep : maxByStart a (x :: xs)
        = maxByStart (if tsLt a.started_at x.started_at then x else a) xs := rfl
    rw [hstep]
    by_cases h : tsLt a.started_at x.started_at
    · rw [if_pos h]
      exact List.mem_cons_of_mem a (ih x)
    · rw [if_neg h]
      rcases List.mem_cons.mp (ih a) with h1 | h1
      · rw [h1]
        exact List.mem_cons_self a _
      · exact List.mem_cons_of_mem _ (List.mem_cons_of_mem _ h1)

theorem assignTool_mem (sess : List AgentRow) (t : Ev) (aid : String)
    (h : assignTool sess t = some aid) : aid ∈ sess.map (·.agent_id) := by
  unfold assignTool at h
  cases hc : sess.filter (fun a => decide (isCandidate t a)) with
  | nil => rw [hc] at h; exact Option.noConfusion h
  | cons a rest =>
    have hmem_of : ∀ b : AgentRow, b ∈ sess.filter (fun a => decide (isCandidate t a)) →
        b.agent_id ∈ sess.map (·.agent_id) := by
      intro b hb
      exact List.mem_map_of_mem _ (List.mem_of_mem_filter hb)
    cases rest with
    | nil =>
      rw [hc] at h
      obtain rfl : a.agent_id = aid := Option.some.inj h
      exact hmem_of a (hc ▸ List.mem_cons_self a [])
    | cons b rest2 =>
      rw [hc] at h
      simp only [] at h
      cases hcwd : (a :: b :: rest2).filter (fun c => decide (c.cwd ≠ "" ∧ c.cwd = t.cwd)) with
      | nil =>
        rw [hcwd] at h
        obtain rfl : (maxByStart a (b :: rest2)).agent_id = aid := Option.some.inj h
        exact hmem_of _ (hc ▸ maxByStart_mem (b :: rest2) a)
      | cons c rest3 =>
        cases rest3 with
        | nil =>
          rw [hcwd] at h
          obtain rfl : c.agent_id = aid := Option.some.inj h
          have hc_mem : c ∈ (a :: b :: rest2).filter
              (fun c => decide (c.cwd ≠ "" ∧ c.cwd = t.cwd)) := by
            rw [hcwd]; exact List.mem_cons_self c []
          have : c ∈ a :: b :: rest2 := List.mem_of_mem_filter hc_mem
          exact hmem_of c (hc ▸ this)
        | cons d rest4 =>
          rw [hcwd] at h
          obtain rfl : (maxByStart a (b :: rest2)).agent_id = aid := Option.some.inj h
          exact hmem_of _ (hc ▸ maxByStart_mem (b :: rest2) a)

theorem count_filter_ite {α : Type} [DecidableEq α] (p : α → Bool) (l : List α) (x : α) :
    (l.filter p).count x = if p x then l.count x else 0 := by
  by_cases hx : p x
  · rw [if_pos hx, List.count_filter hx]
  · rw [if_neg hx, List.count_eq_zero]
    intro hmem
    exact hx (List.of_mem_filter hmem)

theorem sum_map_ite_eq {ids : List String} (hnd : ids.Nodup) (x : String) (c : ℕ)
    (hx : x ∈ ids) :
    (ids.map (fun i => if i = x then c else 0)).sum = c := by
  induction ids with
  | nil => cases hx
  | cons a rest ih =>
    have hnd' := List.nodup_cons.mp hnd
    rcases List.mem_cons.mp hx with h1 | hmem
    · subst h1
      simp only [List.map_cons, List.sum_cons, if_pos rfl]
      have hz : (rest.map (fun i => if i = x then c else 0)).sum = 0 := by
        apply List.sum_eq_zero
        intro y hy
        simp only [List.mem_map] at hy
        obtain ⟨i, hi, rfl⟩ := hy
        rw [if_neg]
        intro hia
        exact hnd'.1 (hia ▸ hi)
      rw [hz]
      simp
    · have hax : ¬ a = x := fun h => hnd'.1 (h ▸ hmem)
      simp only [List.map_cons, List.sum_cons, if_neg hax]
      rw [ih hnd'.2 hmem]
      omega

theorem sum_map_zero_of_none {ids : List String} (f : String → ℕ)
    (hf : ∀ i ∈ ids, f i = 0) : (ids.map f).sum = 0 := by
  apply List.sum_eq_zero
  intro y hy
  simp only [List.mem_map] at hy
  obtain ⟨i, hi, rfl⟩ := hy
  exact hf i hi

/-- C1 (amended): when the session has at least one Agent, the union of the
per-agent owned lists and the unmatched list is exactly (a permutation of)
the non-`Task` tool events, pairwise disjoint — every tool event is placed
in exactly one bucket; when the session has NO Agents, the Correlator
instead returns ALL tool events — `Task`-typed ones included — in the
unmatched list, so the union is the full tool-event set, not the non-`Task`
subset. -/
theorem C1_partition (tools0 : List Ev) (agents : List AgentRow) (sid : String) :
    (sessionAgents agents sid ≠ [] →
      ((matchToolsToAgents tools0 agents sid).unmatched
        ++ ((((sessionAgents agents sid).map (·.agent_id)).dedup).map
            (matchToolsToAgents tools0 agents sid).agentTools).flatten).Perm
        (step2Tools (kindTools tools0)) ∧
      (∀ aid₁ aid₂ t, t ∈ (matchToolsToAgents tools0 agents sid).agentTools aid₁ →
        t ∈ (matchToolsToAgents tools0 agents sid).agentTools aid₂ → aid₁ = aid₂) ∧
      (∀ aid t, t ∈ (matchToolsToAgents tools0 agents sid).unmatched →
        t ∉ (matchToolsToAgents tools0 agents sid).agentTools aid)) ∧
    (sessionAgents agents sid = [] →
      (matchToolsToAgents tools0 agents sid).unmatched = kindTools tools0 ∧
      (matchToolsToAgents tools0 agents sid).agentTools = fun _ => []) := by
  by_cases hs : sessionAgents agents sid = []
  · refine ⟨fun hne => absurd hs hne, fun _ => ?_⟩
    unfold matchToolsToAgents
    rw [if_pos hs]
    exact ⟨rfl, rfl⟩
  · refine ⟨fun _ => ?_, fun he => absurd he hs⟩
    have hmr : matchToolsToAgents tools0 agents sid
        = { agentTools := agentToolsFn (sessionAgents agents sid) (kindTools tools0)
            agentLabels := (step1 (kindTools tools0) (sessionAgents agents sid)).labels
            unmatched := unmatchedOf (sessionAgents agents sid) (kindTools tools0) } := by
      unfold matchToolsToAgents
      rw [if_neg hs]
    rw [hmr]
    refine ⟨?_, ?_, ?_⟩
    · rw [List.perm_iff_count]
      intro x
      rw [List.count_append, List.count_flatten, List.map_map]
      unfold unmatchedOf agentToolsFn
      rw [count_filter_ite]
      have hmap : (((sessionAgents agents sid).map (·.agent_id)).dedup).map
            ((List.count x) ∘ fun aid => (step2Tools (kindTools tools0)).filter
              (fun t => decide (assignTool (sessionAgents agents sid) t = some aid)))
          = (((sessionAgents agents sid).map (·.agent_id)).dedup).map
            (fun aid => if decide (assignTool (sessionAgents agents sid) x = some aid) then
              (step2Tools (kindTools tools0)).count x else 0) := by
        apply List.map_congr_left
        intro aid _
        exact count_filter_ite _ _ x
      rw [hmap]
      cases han : assignTool (sessionAgents agents sid) x with
      | none =>
        rw [if_pos (by simp)]
        have hz : ((((sessionAgents agents sid).map (·.agent_id)).dedup).map
            (fun aid => if decide ((none : Option String) = some aid) then
              (step2Tools (kindTools tools0)).count x else 0)).sum = 0 := by
          apply sum_map_zero_of_none
          intro i _
          rw [if_neg (by simp)]
        rw [hz]
        omega
      | some aid0 =>
        rw [if_neg (by simp)]
        have hfun : (fun aid => if decide ((some aid0 : Option String) = some aid) then
              (step2Tools (kindTools tools0)).count x else 0)
            = fun aid => if aid = aid0 then (step2Tools (kindTools tools0)).count x else 0 := by
          funext aid
          by_cases hq : aid = aid0
          · rw [if_pos (by simp [hq]), if_pos hq]
          · rw [if_neg (by simp; exact fun hqq => hq hqq.symm), if_neg hq]
        rw [hfun, sum_map_ite_eq (List.nodup_dedup _) aid0 _
          (List.mem_dedup.mpr (assignTool_mem _ x aid0 han))]
        omega
    · intro aid₁ aid₂ t ht₁ ht₂
      simp only [agentToolsFn, List.mem_filter, decide_eq_true_eq] at ht₁ ht₂
      have := ht₁.2.symm.trans ht₂.2
      exact Option.some.inj this
    · intro aid t htu hta
      simp only [unmatchedOf, agentToolsFn, List.mem_filter, decide_eq_true_eq] at htu hta
      rw [htu.2] at hta
      exact Option.noConfusion hta.2

/-- Witness for C1 at a concrete input with one agent owning one tool. -/
theorem C1_witness :
    ((matchToolsToAgents [toolAtStop] [agentA] "s").unmatched
      ++ ((((sessionAgents [agentA] "s").map (·.agent_id)).dedup).map
          (matchToolsToAgents [toolAtStop] [agentA] "s").agentTools).flatten).Perm
      (step2Tools (kindTools [toolAtStop])) :=
  ((C1_partition [toolAtStop] [agentA] "s").1 (by decide)).1

/-- Counterexample to C1 as stated: a session with NO agents and one `Task`
tool event — the unmatched list is the full tool list including the `Task`
event, while the claimed non-`Task` set is empty. -/
theorem C1_counterexample :
    (matchToolsToAgents [taskLate] [] "s").unmatched = [taskLate] ∧
    taskLate.tool_name = "Task" ∧
    step2Tools (kindTools [taskLate]) = [] ∧
    (matchToolsToAgents [taskLate] [] "s").agentTools = fun _ => [] :=
  ⟨by decide, by decide, by decide, rfl⟩

/-! ## C2: `Task` events and standalone timeline leaves -/

theorem agentGroupEvents_kind (rAgents cAgents : List AgentRow) (sid : String)
    (agentTools : String → List Ev) (labels : String → Option String) (now : ℚ) :
    ∀ m ∈ agentGroupEvents rAgents cAgents sid agentTools labels now,
      m.ev.kind = Kind.agentGroup := by
  intro m hm
  unfold agentGroupEvents at hm
  simp only [List.mem_map] at hm
  obtain ⟨p, _, rfl⟩ := hm
  rfl

theorem mem_mergedOf_iff (prompts unmatched : List Ev) (groups : List MNode)
    (m : MNode) :
    m ∈ mergedOf prompts unmatched groups ↔
      m ∈ (prompts.filter (fun e => decide (e.kind = Kind.prompt))).map
          (fun e => ({ ev := e } : MNode))
        ++ unmatched.map (fun e => ({ ev := e } : MNode)) ++ groups := by
  unfold mergedOf
  exact (List.perm_insertionSort mnLe _).mem_iff

/-- C2 (amended): whenever the session has at least one Agent, NO
`Task`-typed tool event appears in the unmatched list, in any agent's owned
list, or as a tool node of the merged timeline — matched or not, every
`Task` event is consumed.  Only when the session has NO Agents do `Task`
events appear as standalone leaves: the unmatched list is then the full
tool-event list and each of its members becomes a merged timeline node. -/
theorem C2_task_consumption (prompts : List PromptRow) (tools : List ToolRow)
    (rAgents cAgents : List AgentRow) (sid : String) (now : ℚ)
    (tl0 : List Ev) (mr : MatchResult) (ag : List MNode)
    (htl : tl0 = timeline0 prompts tools)
    (hmr : mr = matchToolsToAgents tl0 (rAgents ++ cAgents) sid)
    (hag : ag = agentGroupEvents rAgents cAgents sid mr.agentTools mr.agentLabels now) :
    (sessionAgents (rAgents ++ cAgents) sid ≠ [] →
      (∀ t ∈ mr.unmatched, ¬ t.tool_name = "Task") ∧
      (∀ aid t, t ∈ mr.agentTools aid → ¬ t.tool_name = "Task") ∧
      (∀ m ∈ mergedOf tl0 mr.unmatched ag,
        m.ev.kind = Kind.tool → ¬ m.ev.tool_name = "Task")) ∧
    (sessionAgents (rAgents ++ cAgents) sid = [] →
      mr.unmatched = kindTools tl0 ∧
      ∀ t ∈ kindTools tl0,
        ({ ev := t, children := [] } : MNode) ∈ mergedOf tl0 mr.unmatched ag) := by
  constructor
  · intro hs
    have hmr' : mr
        = { agentTools := agentToolsFn (sessionAgents (rAgents ++ cAgents) sid) (kindTools tl0)
            agentLabels := (step1 (kindTools tl0) (sessionAgents (rAgents ++ cAgents) sid)).labels
            unmatched := unmatchedOf (sessionAgents (rAgents ++ cAgents) sid) (kindTools tl0) } := by
      rw [hmr]
      unfold matchToolsToAgents
      rw [if_neg hs]
    have hunm : ∀ t ∈ mr.unmatched, ¬ t.tool_name = "Task" := by
      intro t ht
      rw [hmr'] at ht
      simp only [unmatchedOf, step2Tools, List.mem_filter, decide_eq_true_eq] at ht
      exact ht.1.2
    have hat : ∀ aid t, t ∈ mr.agentTools aid → ¬ t.tool_name = "Task" := by
      intro aid t ht
      rw [hmr'] at ht
      simp only [agentToolsFn, step2Tools, List.mem_filter, decide_eq_true_eq] at ht
      exact ht.1.2
    refine ⟨hunm, hat, ?_⟩
    intro m hm hkind
    rw [mem_mergedOf_iff] at hm
    rcases List.mem_append.mp hm with hm' | hmg
    · rcases List.mem_append.mp hm' with hmp | hmu
      · simp only [List.mem_map, List.mem_filter, decide_eq_true_eq] at hmp
        obtain ⟨e, ⟨_, hk⟩, rfl⟩ := hmp
        rw [hkind] at hk
        exact absurd hk (by intro h; exact Kind.noConfusion h)
      · simp only [List.mem_map] at hmu
        obtain ⟨e, he, rfl⟩ := hmu
        exact hunm e he
    · have := agentGroupEvents_kind rAgents cAgents sid mr.agentTools mr.agentLabels now m
        (hag ▸ hmg)
      rw [hkind] at this
      exact absurd this (by intro h; exact Kind.noConfusion h)
  · intro hs
    have hmr' : mr
        = { agentTools := fun _ => []
            agentLabels := fun _ => none
            unmatched := kindTools tl0 } := by
      rw [hmr]
      unfold matchToolsToAgents
      rw [if_pos hs]
    refine ⟨by rw [hmr'], ?_⟩
    intro t ht
    rw [mem_mergedOf_iff]
    refine List.mem_append.mpr (Or.inl (List.mem_append.mpr (Or.inr ?_)))
    rw [hmr']
    exact List.mem_map_of_mem _ ht

/-- A tool-event row outside `agentA`'s window, hence unmatched. -/
def toolRowOutside : ToolRow :=
  { tool_name := "Read", tool_label := "", created_at := some 20
    duration_ms := none, is_error := false, cwd := "" }

/-- Witness for C2 at a concrete input: a session with one agent and an
unmatched non-`Task` tool event; the theorem yields that the unmatched
event is not a `Task`. -/
theorem C2_witness : ¬ (toolEv toolRowOutside).tool_name = "Task" :=
  ((C2_task_consumption [] [toolRowOutside] [agentA] [] "s" 100
      (timeline0 [] [toolRowOutside])
      (matchToolsToAgents (timeline0 [] [toolRowOutside]) ([agentA] ++ []) "s")
      (agentGroupEvents [agentA] [] "s"
        (matchToolsToAgents (timeline0 [] [toolRowOutside]) ([agentA] ++ []) "s").agentTools
        (matchToolsToAgents (timeline0 [] [toolRowOutside]) ([agentA] ++ []) "s").agentLabels
        100)
      rfl rfl rfl).1 (by decide)).1 (toolEv toolRowOutside) (by decide)

/-- Counterexample to C2 as stated: `taskLate` is a `Task` event that NO
agent claimed (the only agent's label is unassigned), yet it does NOT
appear in the unmatched list — the code drops every `Task` event once the
session has an agent, so an unmatched `Task` never becomes a standalone
leaf. -/
theorem C2_counterexample :
    (matchToolsToAgents [taskLate] [agentA] "s").agentLabels "a1" = none ∧
    (step1 (kindTools [taskLate]) (sessionAgents [agentA] "s")).claims = [] ∧
    (matchToolsToAgents [taskLate] [agentA] "s").unmatched = [] ∧
    (matchToolsToAgents [taskLate] [agentA] "s").agentTools "a1" = [] :=
  ⟨by decide, by decide, by decide, by decide⟩

/-! ## C7: Task-pairing bounds and single claiming -/

theorem scoreLt_trans {a b c : ℚ × ℤ} (h₁ : scoreLt a b) (h₂ : scoreLt b c) :
    scoreLt a c := by
  rcases h₁ with h | ⟨he, h⟩ <;> rcases h₂ with h' | ⟨he', h'⟩
  · exact Or.inl (lt_trans h h')
  · exact Or.inl (he' ▸ h)
  · exact Or.inl (he ▸ h')
  · exact Or.inr ⟨he.trans he', lt_trans h h'⟩

/-- Invariant of the inner candidate loop: a selected task is unclaimed,
has a nonempty timestamp not later than the agent start, its stored score
is its delta, and the score beats the initial `(6, 0)` bound. -/
def bestInv (agent : AgentRow) (used : Finset ℕ)
    (acc : (ℚ × ℤ) × Option (ℕ × Ev)) : Prop :=
  (acc.2 = none → acc.1 = (6, 0)) ∧
  ∀ i tt, acc.2 = some (i, tt) →
    i ∉ used ∧ tt.ts ≠ none ∧ agent.started_at ≠ none ∧
    ¬ tsLt agent.started_at tt.ts ∧
    deltaOf tt.ts agent.started_at = some acc.1.1 ∧
    scoreLt acc.1 (6, 0)

theorem bestTaskStep_inv (agent : AgentRow) (used : Finset ℕ)
    (acc : (ℚ × ℤ) × Option (ℕ × Ev)) (p : ℕ × Ev) (h : bestInv agent used acc) :
    bestInv agent used (bestTaskStep agent used acc p) := by
  unfold bestTaskStep
  by_cases h1 : p.1 ∈ used
  · rw [if_pos h1]; exact h
  · rw [if_neg h1]
    by_cases h2 : p.2.ts = none ∨ agent.started_at = none ∨ tsLt agent.started_at p.2.ts
    · rw [if_pos h2]; exact h
    · rw [if_neg h2]
      cases hdelta : deltaOf p.2.ts agent.started_at with
      | none => exact h
      | some delta =>
        show bestInv agent used
          (if delta ≥ acc.1.1 ∧ acc.2 ≠ none then acc
           else if scoreLt (delta, -(typeBonus agent.agent_type p.2.text)) acc.1
             then ((delta, -(typeBonus agent.agent_type p.2.text)), some p) else acc)
        by_cases h3 : delta ≥ acc.1.1 ∧ acc.2 ≠ none
        · rw [if_pos h3]; exact h
        · rw [if_neg h3]
          by_cases h4 : scoreLt (delta, -(typeBonus agent.agent_type p.2.text)) acc.1
          · rw [if_pos h4]
            push_neg at h2
            refine ⟨fun hn => Option.noConfusion hn, ?_⟩
            intro i tt hsome
            obtain rfl : p = (i, tt) := Option.some.inj hsome
            have hlt60 : scoreLt (delta, -(typeBonus agent.agent_type tt.text)) (6, 0) := by
              cases hacc : acc.2 with
              | none => rw [h.1 hacc] at h4; exact h4
              | some q => exact scoreLt_trans h4 ((h.2 q.1 q.2 (by rw [hacc])).2.2.2.2.2)
            exact ⟨h1, h2.1, h2.2.1, h2.2.2, hdelta, hlt60⟩
          · rw [if_neg h4]; exact h

theorem bestTaskFold_inv (agent : AgentRow) (used : Finset ℕ) (pool : List (ℕ × Ev)) :
    bestInv agent used (bestTaskFold agent used pool) := by
  unfold bestTaskFold
  have hgo : ∀ (l : List (ℕ × Ev)) (acc : (ℚ × ℤ) × Option (ℕ × Ev)),
      bestInv agent used acc →
      bestInv agent used (l.foldl (bestTaskStep agent used) acc) := by
    intro l
    induction l with
    | nil => intro acc h; exact h
    | cons p rest ih => intro acc h; exact ih _ (bestTaskStep_inv agent used acc p h)
  exact hgo pool ((6, 0), none)
    ⟨fun _ => rfl, fun i tt hc => Option.noConfusion hc⟩

theorem bestTaskFold_claims (agent : AgentRow) (used : Finset ℕ)
    (pool : List (ℕ × Ev)) (i : ℕ) (tt : Ev)
    (h : (bestTaskFold agent used pool).2 = some (i, tt)) :
    i ∉ used ∧ tsLe tt.ts agent.started_at ∧
    ∃ q a : ℚ, tt.ts = some q ∧ agent.started_at = some a ∧ |a - q| ≤ 6 := by
  obtain ⟨-, h2⟩ := bestTaskFold_inv agent used pool
  obtain ⟨hi, hts, hst, hnl, hd, hsl⟩ := h2 i tt h
  refine ⟨hi, not_tsLt_iff.mp hnl, ?_⟩
  cases hq : tt.ts with
  | none => exact absurd hq hts
  | some q =>
    cases ha : agent.started_at with
    | none => exact absurd ha hst
    | some a =>
      refine ⟨q, a, rfl, rfl, ?_⟩
      rw [hq, ha] at hd
      have hd' : |a - q| = (bestTaskFold agent used pool).1.1 := by
        rw [← absQ_eq_abs]
        simpa [deltaOf] using hd
      have hle : (bestTaskFold agent used pool).1.1 ≤ 6 := by
        rcases hsl with h' | ⟨he, _⟩
        · exact le_of_lt h'
        · exact le_of_eq he
      rw [hd']
      exact hle

/-- The per-claim property of C7. -/
def claimOk (c : AgentRow × ℕ × Ev) : Prop :=
  tsLe c.2.2.ts c.1.started_at ∧
  ∃ q a : ℚ, c.2.2.ts = some q ∧ c.1.started_at = some a ∧ |a - q| ≤ 6

theorem step1_go (pool : List (ℕ × Ev)) :
    ∀ (agents : List AgentRow) (acc : Step1Acc),
      (∀ c ∈ acc.claims, claimOk c) →
      ((acc.claims.map (fun c => c.2.1)).Nodup) →
      (∀ c ∈ acc.claims, c.2.1 ∈ acc.used) →
      (∀ c ∈ (agents.foldl (step1Step pool) acc).claims, claimOk c) ∧
      (((agents.foldl (step1Step pool) acc).claims.map (fun c => c.2.1)).Nodup) ∧
      (∀ c ∈ (agents.foldl (step1Step pool) acc).claims,
        c.2.1 ∈ (agents.foldl (step1Step pool) acc).used) := by
  intro agents
  induction agents with
  | nil => intro acc h1 h2 h3; exact ⟨h1, h2, h3⟩
  | cons ag rest ih =>
    intro acc h1 h2 h3
    rw [List.foldl_cons]
    cases hb : (bestTaskFold ag acc.used pool).2 with
    | none =>
      have hstep : step1Step pool acc ag = acc := by
        unfold step1Step
        rw [hb]
      rw [hstep]
      exact ih acc h1 h2 h3
    | some p =>
      obtain ⟨i, tt⟩ := p
      have hspec := bestTaskFold_claims ag acc.used pool i tt hb
      have hstep : step1Step pool acc ag
          = { labels := fun aid => if aid = ag.agent_id then some tt.text
                else acc.labels aid
              used := insert i acc.used
              claims := acc.claims ++ [(ag, i, tt)] } := by
        unfold step1Step
        rw [hb]
      rw [hstep]
      apply ih
      · intro c hc
        rcases List.mem_append.mp hc with hc' | hc'
        · exact h1 c hc'
        · rw [List.mem_singleton.mp hc']
          exact ⟨hspec.2.1, hspec.2.2⟩
      · rw [List.map_append, List.nodup_append]
        refine ⟨h2, List.nodup_singleton _, ?_⟩
        intro j hj hj'
        simp only [List.map_cons, List.map_nil, List.mem_singleton] at hj'
        simp only [List.mem_map] at hj
        obtain ⟨c, hc, rfl⟩ := hj
        exact hspec.1 (hj' ▸ h3 c hc)
      · intro c hc
        rcases List.mem_append.mp hc with hc' | hc'
        · exact Finset.mem_insert_of_mem (h3 c hc')
        · rw [List.mem_singleton.mp hc']
          exact Finset.mem_insert_self i acc.used

/-- C7: every agent–Task pairing the Correlator's Step 1 records claims a
`Task` event timestamped no later than the agent's `started_at`, with a
time delta of at most the fixed 6-second outer bound, and no `Task` event
(pool index) is claimed by more than one agent. -/
theorem C7_task_pairing (tools : List Ev) (sess : List AgentRow) :
    (((step1 tools sess).claims.map (fun c => c.2.1)).Nodup) ∧
    ∀ c ∈ (step1 tools sess).claims,
      tsLe c.2.2.ts c.1.started_at ∧
      ∃ q a : ℚ, c.2.2.ts = some q ∧ c.1.started_at = some a ∧ |a - q| ≤ 6 := by
  unfold step1
  have h := step1_go (taskPool tools).enum (sortedAgents sess)
    { labels := fun _ => none, used := ∅, claims := [] }
    (by intro c hc; cases hc) (by simp) (by intro c hc; cases hc)
  exact ⟨h.2.1, fun c hc => h.1 c hc⟩

/-- An agent of session `s` started at 10 (empty `agent_type`). -/
def agent7 : AgentRow :=
  { agent_id := "g", agent_type := "", session_id := "s", cwd := ""
    started_at := some 10, stopped_at := none }

/-- A `Task` tool event at timestamp 5, within 6 seconds of `agent7`'s
start. -/
def task7 : Ev :=
  { ts := some 5, kind := Kind.tool, text := "t", tool_name := "Task" }

/-- Witness for C7 at a concrete input where the pairing claims a task:
the claimed `Task` timestamp is ≤ the agent's `started_at`. -/
theorem C7_witness : tsLe task7.ts agent7.started_at :=
  ((C7_task_pairing [task7] [agent7]).2 (agent7, 0, task7)
    (by
      norm_num [step1, sortedAgents, List.insertionSort, List.orderedInsert, taskPool,
        List.filter, task7, agent7, List.enum, List.enumFrom, step1Step, bestTaskFold,
        bestTaskStep, List.foldl, deltaOf, absQ, typeBonus, containsSub, scoreLt, tsLt,
        Option.some_ne_none, or_self])).1

/-! ## C3: ordering of the flattened timeline -/

theorem mergedOf_sorted (prompts unmatched : List Ev) (groups : List MNode) :
    List.Sorted mnLe (mergedOf prompts unmatched groups) :=
  List.sorted_insertionSort mnLe _

theorem groupsAux_children_sublist :
    ∀ (l : List MNode) (cur : Option MNode) (kids : List MNode),
      ∀ g ∈ groupsAux cur kids l, g.2.Sublist (kids ++ l) := by
  intro l
  induction l with
  | nil =>
    intro cur kids g hg
    unfold groupsAux at hg
    by_cases hc : cur ≠ none ∨ kids ≠ []
    · rw [if_pos hc] at hg
      rw [List.mem_singleton.mp hg]
      simpa using List.Sublist.refl kids
    · rw [if_neg hc] at hg
      cases hg
  | cons ev rest ih =>
    intro cur kids g hg
    unfold groupsAux at hg
    by_cases hp : ev.ev.kind = Kind.prompt
    · rw [if_pos hp] at hg
      rcases List.mem_append.mp hg with hg' | hg'
      · by_cases hc : cur ≠ none ∨ kids ≠ []
        · rw [if_pos hc] at hg'
          rw [List.mem_singleton.mp hg']
          exact (List.sublist_append_left kids (ev :: rest)).trans
            (List.Sublist.refl _)
        · rw [if_neg hc] at hg'
          cases hg'
      · have := ih (some ev) [] g hg'
        simp only [List.nil_append] at this
        exact this.trans ((List.sublist_cons_self ev rest).trans
          (List.sublist_append_right kids (ev :: rest)))
    · rw [if_neg hp] at hg
      have := ih cur (kids ++ [ev]) g hg
      rw [List.append_assoc, List.singleton_append] at this
      exact this

theorem groupsAux_heads :
    ∀ (l : List MNode) (cur : Option MNode) (kids : List MNode),
      (groupsAux cur kids l).filterMap (fun g => g.1)
        = cur.toList ++ l.filter (fun m => decide (m.ev.kind = Kind.prompt)) := by
  intro l
  induction l with
  | nil =>
    intro cur kids
    unfold groupsAux
    by_cases hc : cur ≠ none ∨ kids ≠ []
    · rw [if_pos hc]
      cases cur <;> simp
    · rw [if_neg hc]
      push_neg at hc
      rw [hc.1]
      simp
  | cons ev rest ih =>
    intro cur kids
    unfold groupsAux
    by_cases hp : ev.ev.kind = Kind.prompt
    · rw [if_pos hp, List.filterMap_append, ih (some ev) []]
      have hfl : (ev :: rest).filter (fun m => decide (m.ev.kind = Kind.prompt))
          = ev :: rest.filter (fun m => decide (m.ev.kind = Kind.prompt)) :=
        List.filter_cons_of_pos (by simpa using hp)
      rw [hfl]
      by_cases hc : cur ≠ none ∨ kids ≠ []
      · rw [if_pos hc]
        cases cur <;> simp
      · rw [if_neg hc]
        push_neg at hc
        rw [hc.1]
        simp
    · rw [if_neg hp, ih cur (kids ++ [ev])]
      have hfl : (ev :: rest).filter (fun m => decide (m.ev.kind = Kind.prompt))
          = rest.filter (fun m => decide (m.ev.kind = Kind.prompt)) :=
        List.filter_cons_of_neg (by simpa using hp)
      rw [hfl]

theorem groupsAux_children_kind :
    ∀ (l : List MNode) (cur : Option MNode) (kids : List MNode),
      (∀ c ∈ kids, ¬ c.ev.kind = Kind.prompt) →
      ∀ g ∈ groupsAux cur kids l, ∀ c ∈ g.2, ¬ c.ev.kind = Kind.prompt := by
  intro l
  induction l with
  | nil =>
    intro cur kids hk g hg
    unfold groupsAux at hg
    by_cases hc : cur ≠ none ∨ kids ≠ []
    · rw [if_pos hc] at hg
      rw [List.mem_singleton.mp hg]
      exact hk
    · rw [if_neg hc] at hg
      cases hg
  | cons ev rest ih =>
    intro cur kids hk g hg
    unfold groupsAux at hg
    by_cases hp : ev.ev.kind = Kind.prompt
    · rw [if_pos hp] at hg
      rcases List.mem_append.mp hg with hg' | hg'
      · by_cases hc : cur ≠ none ∨ kids ≠ []
        · rw [if_pos hc] at hg'
          rw [List.mem_singleton.mp hg']
          exact hk
        · rw [if_neg hc] at hg'
          cases hg'
      · exact ih (some ev) [] (by intro c hc; cases hc) g hg'
    · rw [if_neg hp] at hg
      refine ih cur (kids ++ [ev]) ?_ g hg
      intro c hc
      rcases List.mem_append.mp hc with hc' | hc'
      · exact hk c hc'
      · rw [List.mem_singleton.mp hc']
        exact hp

theorem tagGroups_map_ts_kind (tl : List Ev) :
    (tagGroups tl).map (fun e => (e.ts, e.kind)) = tl.map (fun e => (e.ts, e.kind)) := by
  unfold tagGroups
  have hgo : ∀ (l : List Ev) (acc : List Ev × ℤ),
      ((l.foldl (fun (acc : List Ev × ℤ) ev =>
          let gi := if ev.kind = Kind.prompt then acc.2 + 1 else acc.2
          (acc.1 ++ [{ ev with group := gi }], gi)) acc).1).map (fun e => (e.ts, e.kind))
        = (acc.1).map (fun e => (e.ts, e.kind)) ++ l.map (fun e => (e.ts, e.kind)) := by
    intro l
    induction l with
    | nil => intro acc; simp
    | cons ev rest ih =>
      intro acc
      rw [List.foldl_cons, ih]
      simp
  rw [hgo tl ([], -1)]
  simp

/-- The timestamps of the prompt nodes of a flat timeline, in order. -/
def promptTs (l : List Ev) : List Ts :=
  l.filterMap (fun e => if e.kind = Kind.prompt then some e.ts else none)

theorem promptTs_append (l₁ l₂ : List Ev) :
    promptTs (l₁ ++ l₂) = promptTs l₁ ++ promptTs l₂ :=
  List.filterMap_append l₁ l₂ _

theorem promptTs_eq_nil (l : List Ev) (h : ∀ e ∈ l, ¬ e.kind = Kind.prompt) :
    promptTs l = [] := by
  unfold promptTs
  rw [List.filterMap_eq_nil_iff]
  intro e he
  rw [if_neg (h e he)]

theorem promptTs_tagGroups (tl : List Ev) : promptTs (tagGroups tl) = promptTs tl := by
  have h1 : ∀ (l : List Ev), promptTs l
      = (l.map (fun e => (e.ts, e.kind))).filterMap
          (fun p => if p.2 = Kind.prompt then some p.1 else none) := by
    intro l
    rw [List.filterMap_map]
    rfl
  rw [h1, h1, tagGroups_map_ts_kind]

theorem expandChild_no_prompt (cA : Finset String) (c : MNode)
    (hc : ¬ c.ev.kind = Kind.prompt)
    (hn : ∀ t ∈ c.children, ¬ t.kind = Kind.prompt) :
    ∀ e ∈ expandChild cA c, ¬ e.kind = Kind.prompt := by
  intro e he
  unfold expandChild at he
  by_cases hk : c.ev.kind = Kind.agentGroup
  · rw [if_pos hk] at he
    rcases List.mem_append.mp he with he' | he'
    · rw [List.mem_singleton.mp he']
      exact hc
    · by_cases hcol : c.ev.agent_id ∈ cA
      · rw [if_pos hcol] at he'
        cases he'
      · rw [if_neg hcol] at he'
        simp only [List.mem_map] at he'
        obtain ⟨t, ht, rfl⟩ := he'
        exact hn t ht
  · rw [if_neg hk] at he
    rw [List.mem_singleton.mp he]
    exact hc

theorem expandGroup_promptTs (cP : Finset Ts) (cA : Finset String)
    (g : Option MNode × List MNode)
    (hhead : ∀ p, g.1 = some p → p.ev.kind = Kind.prompt)
    (hkids : ∀ c ∈ g.2, ¬ c.ev.kind = Kind.prompt)
    (hnested : ∀ c ∈ g.2, ∀ t ∈ c.children, ¬ t.kind = Kind.prompt) :
    promptTs (expandGroup cP cA g) = (g.1.map (fun p => p.ev.ts)).toList := by
  obtain ⟨g1, g2⟩ := g
  cases g1 with
  | none =>
    simp only [expandGroup, Option.map_none, Option.toList_none]
    apply promptTs_eq_nil
    intro e he
    simp only [List.mem_map] at he
    obtain ⟨c, hc, rfl⟩ := he
    exact hkids c hc
  | some p =>
    simp only [expandGroup, Option.map_some, Option.toList_some]
    rw [promptTs_append]
    have hrest : promptTs (if p.ev.ts ∈ cP then []
        else (g2.map (expandChild cA)).flatten) = [] := by
      by_cases hcol : p.ev.ts ∈ cP
      · rw [if_pos hcol]
        rfl
      · rw [if_neg hcol]
        apply promptTs_eq_nil
        intro e he
        rw [List.mem_flatten] at he
        obtain ⟨sub, hsub, hesub⟩ := he
        simp only [List.mem_map] at hsub
        obtain ⟨c, hc, rfl⟩ := hsub
        exact expandChild_no_prompt cA c (hkids c hc) (hnested c hc) e hesub
    rw [hrest]
    have hp := hhead p rfl
    simp only [promptTs, List.filterMap_cons, List.filterMap_nil]
    rw [if_pos hp]
    simp

theorem expandGroupsAll_promptTs (cP : Finset Ts) (cA : Finset String) :
    ∀ (gs : List (Option MNode × List MNode)),
      (∀ g ∈ gs, ∀ p, g.1 = some p → p.ev.kind = Kind.prompt) →
      (∀ g ∈ gs, ∀ c ∈ g.2, ¬ c.ev.kind = Kind.prompt) →
      (∀ g ∈ gs, ∀ c ∈ g.2, ∀ t ∈ c.children, ¬ t.kind = Kind.prompt) →
      promptTs (expandGroupsAll cP cA gs)
        = gs.filterMap (fun g => g.1.map (fun p => p.ev.ts)) := by
  intro gs
  induction gs with
  | nil => intro _ _ _; rfl
  | cons g rest ih =>
    intro hh hk hn
    have hexp : expandGroupsAll cP cA (g :: rest)
        = expandGroup cP cA g ++ expandGroupsAll cP cA rest := by
      unfold expandGroupsAll
      rw [List.map_cons, List.flatten_cons]
    rw [hexp, promptTs_append,
      expandGroup_promptTs cP cA g (hh g (List.mem_cons_self g rest))
        (hk g (List.mem_cons_self g rest)) (hn g (List.mem_cons_self g rest)),
      ih (fun g' hg' => hh g' (List.mem_cons_of_mem g hg'))
        (fun g' hg' => hk g' (List.mem_cons_of_mem g hg'))
        (fun g' hg' => hn g' (List.mem_cons_of_mem g hg')),
      List.filterMap_cons]
    cases hg1 : g.1 with
    | none => simp
    | some p => simp

theorem filterMap_option_map {β : Type} (f : MNode → β) :
    ∀ (L : List (Option MNode × List MNode)),
      L.filterMap (fun g => g.1.map f) = (L.filterMap (fun g => g.1)).map f := by
  intro L
  induction L with
  | nil => rfl
  | cons g rest ih =>
    rw [List.filterMap_cons, List.filterMap_cons]
    cases hg : g.1 with
    | none => simpa using ih
    | some p => simpa using ih

theorem matchToolsToAgents_agentTools_kind (tools0 : List Ev)
    (agents : List AgentRow) (sid : String) (aid : String) (t : Ev)
    (ht : t ∈ (matchToolsToAgents tools0 agents sid).agentTools aid) :
    t.kind = Kind.tool := by
  unfold matchToolsToAgents at ht
  by_cases hs : sessionAgents agents sid = []
  · rw [if_pos hs] at ht
    cases ht
  · rw [if_neg hs] at ht
    simp only [agentToolsFn, step2Tools, kindTools, List.mem_filter,
      decide_eq_true_eq] at ht
    exact ht.1.1.2

theorem agentGroupEvents_children_kind (rAgents cAgents : List AgentRow)
    (sid : String) (agentTools : String → List Ev) (labels : String → Option String)
    (now : ℚ) (hat : ∀ aid t, t ∈ agentTools aid → t.kind = Kind.tool) :
    ∀ m ∈ agentGroupEvents rAgents cAgents sid agentTools labels now,
      ∀ t ∈ m.children, t.kind = Kind.tool := by
  intro m hm t ht
  unfold agentGroupEvents at hm
  simp only [List.mem_map] at hm
  obtain ⟨p, _, rfl⟩ := hm
  exact hat p.1.agent_id t ht

theorem mergedOf_children_kind (prompts unmatched : List Ev) (groups : List MNode)
    (hg : ∀ m ∈ groups, ∀ t ∈ m.children, t.kind = Kind.tool) :
    ∀ m ∈ mergedOf prompts unmatched groups, ∀ t ∈ m.children, t.kind = Kind.tool := by
  intro m hm t ht
  rw [mem_mergedOf_iff] at hm
  rcases List.mem_append.mp hm with hm' | hmg
  · rcases List.mem_append.mp hm' with hmp | hmu
    · simp only [List.mem_map] at hmp
      obtain ⟨e, _, rfl⟩ := hmp
      cases ht
    · simp only [List.mem_map] at hmu
      obtain ⟨e, _, rfl⟩ := hmu
      cases ht
  · exact hg m hmg t ht

/-- C3 (amended): the merged pre-grouping list IS sorted non-decreasing by
timestamp, and within each prompt group the direct children keep that
non-decreasing order; but the flattened display timeline presents the
prompt groups NEWEST FIRST — the prompt nodes' timestamps along the
flattened timeline are non-increasing — so the full flattened sequence is
not sorted non-decreasing by timestamp. -/
theorem C3_timeline_order (prompts : List PromptRow) (tools : List ToolRow)
    (rAgents cAgents : List AgentRow) (sid : String) (now : ℚ)
    (cP : Finset Ts) (cA : Finset String)
    (tl0 : List Ev) (mr : MatchResult) (ag merged : List MNode)
    (htl : tl0 = timeline0 prompts tools)
    (hmr : mr = matchToolsToAgents tl0 (rAgents ++ cAgents) sid)
    (hag : ag = agentGroupEvents rAgents cAgents sid mr.agentTools mr.agentLabels now)
    (hmg : merged = mergedOf tl0 mr.unmatched ag) :
    List.Sorted mnLe merged ∧
    (∀ g ∈ groupsOf merged, List.Sorted mnLe g.2) ∧
    List.Pairwise (fun a b : Ts => tsLe b a)
      (promptTs (drawVizTreeTimeline prompts tools rAgents cAgents sid now cP cA)) := by
  have hsorted : List.Sorted mnLe merged := by
    rw [hmg]
    exact mergedOf_sorted _ _ _
  refine ⟨hsorted, ?_, ?_⟩
  · intro g hg
    rw [groupsOf, List.mem_reverse] at hg
    have hsub := groupsAux_children_sublist merged none [] g hg
    rw [List.nil_append] at hsub
    exact hsorted.sublist hsub
  · have hdr : drawVizTreeTimeline prompts tools rAgents cAgents sid now cP cA
        = tagGroups (expandGroupsAll cP cA (groupsOf merged)) := by
      rw [hmg, hag, hmr, htl]
      rfl
    rw [hdr, promptTs_tagGroups]
    have hh : ∀ g ∈ groupsOf merged, ∀ p, g.1 = some p → p.ev.kind = Kind.prompt := by
      intro g hg p hp
      rw [groupsOf, List.mem_reverse] at hg
      have hpm : p ∈ (groupsAux none [] merged).filterMap (fun g => g.1) :=
        List.mem_filterMap.mpr ⟨g, hg, hp⟩
      rw [groupsAux_heads merged none []] at hpm
      simp only [Option.toList_none, List.nil_append, List.mem_filter,
        decide_eq_true_eq] at hpm
      exact hpm.2
    have hk : ∀ g ∈ groupsOf merged, ∀ c ∈ g.2, ¬ c.ev.kind = Kind.prompt := by
      intro g hg
      rw [groupsOf, List.mem_reverse] at hg
      exact groupsAux_children_kind merged none [] (fun c hc => absurd hc
        (List.not_mem_nil c)) g hg
    have hn : ∀ g ∈ groupsOf merged, ∀ c ∈ g.2, ∀ t ∈ c.children,
        ¬ t.kind = Kind.prompt := by
      intro g hg c hc t ht
      rw [groupsOf, List.mem_reverse] at hg
      have hsub := groupsAux_children_sublist merged none [] g hg
      rw [List.nil_append] at hsub
      have hcm : c ∈ merged := hsub.subset hc
      have hck : t.kind = Kind.tool := by
        rw [hmg] at hcm
        refine mergedOf_children_kind tl0 mr.unmatched ag ?_ c hcm t ht
        intro m hm t' ht'
        rw [hag] at hm
        refine agentGroupEvents_children_kind rAgents cAgents sid mr.agentTools
          mr.agentLabels now ?_ m hm t' ht'
        intro aid t'' ht''
        rw [hmr] at ht''
        exact matchToolsToAgents_agentTools_kind tl0 (rAgents ++ cAgents) sid aid t'' ht''
      rw [hck]
      intro hcontra
      exact Kind.noConfusion hcontra
    rw [expandGroupsAll_promptTs cP cA (groupsOf merged) hh hk hn,
      filterMap_option_map (fun p => p.ev.ts) (groupsOf merged)]
    unfold groupsOf
    rw [List.filterMap_reverse, groupsAux_heads merged none []]
    simp only [Option.toList_none, List.nil_append]
    rw [List.map_reverse, List.pairwise_reverse, List.pairwise_map]
    have hps : List.Pairwise mnLe
        (merged.filter (fun m => decide (m.ev.kind = Kind.prompt))) :=
      hsorted.sublist (List.filter_sublist merged)
    exact List.Pairwise.imp (fun h => h) hps

/-- A prompt row at time 0. -/
def promptRow0 : PromptRow := { prompt := "first", created_at := some 0 }

/-- A prompt row at time 10. -/
def promptRow1 : PromptRow := { prompt := "second", created_at := some 10 }

/-- Witness for C3 at a concrete input: two prompts; the flattened
timeline lists their timestamps newest first (non-increasing). -/
theorem C3_witness :
    List.Pairwise (fun a b : Ts => tsLe b a)
      (promptTs (drawVizTreeTimeline [promptRow0, promptRow1] [] [] [] "s" 100 ∅ ∅)) :=
  (C3_timeline_order [promptRow0, promptRow1] [] [] [] "s" 100 ∅ ∅ _ _ _ _
    rfl rfl rfl rfl).2.2

/-- Counterexample to C3 as stated: with prompts at times 0 and 10 and
nothing else, the fully expanded flattened timeline is `[10, 0]` — NOT
sorted non-decreasing by timestamp (groups are reversed, newest first). -/
theorem C3_counterexample :
    ¬ List.Pairwise (fun a b : Ev => tsLe a.ts b.ts)
        (drawVizTreeTimeline [promptRow0, promptRow1] [] [] [] "s" 100 ∅ ∅) := by
  intro hp
  have hts : (drawVizTreeTimeline [promptRow0, promptRow1] [] [] [] "s" 100 ∅ ∅).map
      (fun e => e.ts) = [some 10, some 0] := by decide
  have hp2 : List.Pairwise (fun a b : Ts => tsLe a b) [some 10, some 0] := by
    rw [← hts]
    exact List.pairwise_map.mpr hp
  rw [List.pairwise_cons] at hp2
  have := hp2.1 (some 0) (List.mem_singleton.mpr rfl)
  norm_num [tsLe] at this

/-! ## C5: Gantt monotonicity, duration sum, and the wall-clock span -/

/-- The end instant a tool row contributes to `last_activity`
(`t_start + duration` when the duration is truthy). -/
def toolEndOf (t : ToolRow) : Option ℚ :=
  match t.created_at with
  | none => none
  | some ts =>
    some (match t.duration_ms with
      | some d => if d ≠ 0 then ts + d / 1000 else ts
      | none => ts)

/-- Modelled from the spec: the supremum of tool end instants, seeded. -/
def toolsSup (tools : List ToolRow) (init : ℚ) : ℚ :=
  tools.foldl
    (fun m t => match toolEndOf t with | none => m | some e => max m e) init

/-- Modelled from the spec: the supremum of agent end instants
(`stopped_at` or now), seeded. -/
def agentsSup (agents : List AgentRow) (now : ℚ) (init : ℚ) : ℚ :=
  agents.foldl
    (fun m a =>
      match a.started_at with
      | none => m
      | some _ => max m (a.stopped_at.getD now)) init

/-- Modelled from the spec ("wall-clock span from the first prompt to the
last activity"): the last recorded activity instant of the session — the
maximum of the first prompt time `t0`, every tool end, and every agent's
`stopped_at`-or-now. -/
def specLastActivity (t0 : ℚ) (tools : List ToolRow) (agents : List AgentRow)
    (now : ℚ) : ℚ :=
  agentsSup agents now (toolsSup tools t0)

/-- The first parseable prompt time, in sorted order. -/
def firstPromptTime (prompts : List PromptRow) : Option ℚ :=
  (sortedPrompts prompts).findSome? (fun p => p.created_at)

theorem ganttAux_cons_none (tools : List ToolRow) (agents : List AgentRow)
    (now : ℚ) (ptext : String) (rest : List PromptRow) (cum : ℚ) :
    ganttAux tools agents now ({ prompt := ptext, created_at := none } :: rest) cum
      = ganttAux tools agents now rest cum := rfl

theorem ganttAux_cons_some (tools : List ToolRow) (agents : List AgentRow)
    (now : ℚ) (ptext : String) (s : ℚ) (rest : List PromptRow) (cum : ℚ) :
    ganttAux tools agents now ({ prompt := ptext, created_at := some s } :: rest) cum
      = (let windowEnd :=
           match rest with
           | [] => now
           | q :: _ => match q.created_at with | none => now | some w => w
         let lastActivity := agentLastActivity agents now s windowEnd
             (toolLastActivity tools s windowEnd s)
         if lastActivity = s then ganttAux tools agents now rest cum
         else
           let segEnd := min lastActivity windowEnd
           let d := max 1 (segEnd - s)
           let r := ganttAux tools agents now rest (cum + d)
           ({ prompt_text := short_prompt ptext 20, start := s, stop := s + d
              duration_s := d, offset_s := cum } :: r.1, r.2)) := rfl

theorem ganttAux_basic (tools : List ToolRow) (agents : List AgentRow) (now : ℚ) :
    ∀ (l : List PromptRow) (cum : ℚ),
      (ganttAux tools agents now l cum).2
        = cum + ((ganttAux tools agents now l cum).1.map
            (fun s => s.duration_s)).sum ∧
      (∀ s ∈ (ganttAux tools agents now l cum).1,
        cum ≤ s.offset_s ∧ 1 ≤ s.duration_s) ∧
      List.Pairwise (fun a b : GanttSeg => a.offset_s ≤ b.offset_s)
        (ganttAux tools agents now l cum).1 := by
  intro l
  induction l with
  | nil => intro cum; simp [ganttAux]
  | cons p rest ih =>
    intro cum
    obtain ⟨ptext, pts⟩ := p
    cases pts with
    | none =>
      rw [ganttAux_cons_none]
      exact ih cum
    | some s =>
      rw [ganttAux_cons_some]
      simp only []
      generalize (match rest with
         | [] => now
         | q :: _ => match q.created_at with | none => now | some w => w) = W
      generalize agentLastActivity agents now s W (toolLastActivity tools s W s) = la
      by_cases hskip : la = s
      · rw [if_pos hskip]
        exact ih cum
      · rw [if_neg hskip]
        set d : ℚ := max 1 (min la W - s) with hd
        have hd1 : 1 ≤ d := le_max_left 1 _
        obtain ⟨ih1, ih2, ih3⟩ := ih (cum + d)
        refine ⟨?_, ?_, ?_⟩
        · simp only [List.map_cons, List.sum_cons]
          rw [ih1]
          ring
        · intro sg hsg
          rcases List.mem_cons.mp hsg with rfl | hsg'
          · exact ⟨le_refl cum, hd1⟩
          · have := ih2 sg hsg'
            exact ⟨by linarith [this.1], this.2⟩
        · rw [List.pairwise_cons]
          refine ⟨?_, ih3⟩
          intro sg hsg
          have := ih2 sg hsg
          simp only []
          linarith [this.1]

/-- Whole-second granularity: a rational that is an integer. -/
def IsIntQ (q : ℚ) : Prop := ∃ n : ℤ, q = (n : ℚ)

theorem IsIntQ.sub {a b : ℚ} (ha : IsIntQ a) (hb : IsIntQ b) : IsIntQ (a - b) := by
  obtain ⟨n, rfl⟩ := ha
  obtain ⟨m, rfl⟩ := hb
  exact ⟨n - m, by push_cast; ring⟩

theorem IsIntQ.max {a b : ℚ} (ha : IsIntQ a) (hb : IsIntQ b) : IsIntQ (max a b) := by
  rcases le_total a b with h | h
  · rw [max_eq_right h]; exact hb
  · rw [max_eq_left h]; exact ha

theorem IsIntQ.min {a b : ℚ} (ha : IsIntQ a) (hb : IsIntQ b) : IsIntQ (min a b) := by
  rcases le_total a b with h | h
  · rw [min_eq_left h]; exact ha
  · rw [min_eq_right h]; exact hb

theorem IsIntQ.one_le {q : ℚ} (h : IsIntQ q) (h0 : 0 < q) : 1 ≤ q := by
  obtain ⟨n, rfl⟩ := h
  have : (0 : ℤ) < n := by exact_mod_cast h0
  exact_mod_cast this

theorem toolLastActivity_init_le (tools : List ToolRow) (s w : ℚ) :
    ∀ la0 : ℚ, la0 ≤ toolLastActivity tools s w la0 := by
  induction tools with
  | nil => intro la0; exact le_refl la0
  | cons t rest ih =>
    intro la0
    obtain ⟨tn, tl, tts, td, te, tc⟩ := t
    cases tts with
    | none => exact ih la0
    | some ts =>
      show la0 ≤ toolLastActivity rest s w _
      simp only []
      by_cases hc : ts < s ∨ ts ≥ w
      · rw [if_pos hc]
        exact ih la0
      · rw [if_neg hc]
        exact le_trans (le_max_left la0 _) (ih _)

theorem toolLastActivity_le (tools : List ToolRow) (s w : ℚ) (B : ℚ)
    (hB : ∀ t ∈ tools, ∀ e, toolEndOf t = some e → e ≤ B) :
    ∀ la0 : ℚ, la0 ≤ B → toolLastActivity tools s w la0 ≤ B := by
  induction tools with
  | nil => intro la0 h; exact h
  | cons t rest ih =>
    intro la0 h
    have hB' : ∀ t' ∈ rest, ∀ e, toolEndOf t' = some e → e ≤ B :=
      fun t' ht' => hB t' (List.mem_cons_of_mem t ht')
    obtain ⟨tn, tl, tts, td, te, tc⟩ := t
    cases tts with
    | none => exact ih hB' la0 h
    | some ts =>
      show toolLastActivity rest s w _ ≤ B
      simp only []
      by_cases hc : ts < s ∨ ts ≥ w
      · rw [if_pos hc]
        exact ih hB' la0 h
      · rw [if_neg hc]
        refine ih hB' _ (max_le h ?_)
        exact hB _ (List.mem_cons_self _ _) _ rfl

theorem toolLastActivity_degenerate (tools : List ToolRow) (s w : ℚ) (hw : w ≤ s) :
    ∀ la0 : ℚ, toolLastActivity tools s w la0 = la0 := by
  induction tools with
  | nil => intro la0; rfl
  | cons t rest ih =>
    intro la0
    obtain ⟨tn, tl, tts, td, te, tc⟩ := t
    cases tts with
    | none => exact ih la0
    | some ts =>
      show toolLastActivity rest s w _ = la0
      simp only []
      rw [if_pos ?_]
      · exact ih la0
      · by_cases h1 : ts < s
        · exact Or.inl h1
        · exact Or.inr (le_trans hw (not_lt.mp h1))

theorem toolLastActivity_int (tools : List ToolRow) (s w : ℚ)
    (hT : ∀ t ∈ tools, ∀ e, toolEndOf t = some e → IsIntQ e) :
    ∀ la0 : ℚ, IsIntQ la0 → IsIntQ (toolLastActivity tools s w la0) := by
  induction tools with
  | nil => intro la0 h; exact h
  | cons t rest ih =>
    intro la0 h
    have hT' : ∀ t' ∈ rest, ∀ e, toolEndOf t' = some e → IsIntQ e :=
      fun t' ht' => hT t' (List.mem_cons_of_mem t ht')
    obtain ⟨tn, tl, tts, td, te, tc⟩ := t
    cases tts with
    | none => exact ih hT' la0 h
    | some ts =>
      show IsIntQ (toolLastActivity rest s w _)
      simp only []
      by_cases hc : ts < s ∨ ts ≥ w
      · rw [if_pos hc]
        exact ih hT' la0 h
      · rw [if_neg hc]
        exact ih hT' _ (h.max (hT _ (List.mem_cons_self _ _) _ rfl))

theorem agentLastActivity_init_le (agents : List AgentRow) (now s w : ℚ) :
    ∀ la0 : ℚ, la0 ≤ agentLastActivity agents now s w la0 := by
  induction agents with
  | nil => intro la0; exact le_refl la0
  | cons a rest ih =>
    intro la0
    obtain ⟨aid, aty, asid, acwd, ast, astp⟩ := a
    cases ast with
    | none => exact ih la0
    | some aStart =>
      show la0 ≤ agentLastActivity rest now s w _
      simp only []
      by_cases hc : aStart ≥ w
      · rw [if_pos hc]
        exact ih la0
      · rw [if_neg hc]
        cases astp with
        | some aStop =>
          simp only []
          by_cases hs2 : aStop ≤ s
          · rw [if_pos hs2]
            exact ih la0
          · rw [if_neg hs2]
            exact le_trans (le_max_left la0 _) (ih _)
        | none => exact le_trans (le_max_left la0 _) (ih _)

theorem agentLastActivity_le (agents : List AgentRow) (now s w : ℚ) (B : ℚ)
    (hB : ∀ a ∈ agents, a.started_at ≠ none → a.stopped_at.getD now ≤ B) :
    ∀ la0 : ℚ, la0 ≤ B → agentLastActivity agents now s w la0 ≤ B := by
  induction agents with
  | nil => intro la0 h; exact h
  | cons a rest ih =>
    intro la0 h
    have hB' : ∀ a' ∈ rest, a'.started_at ≠ none → a'.stopped_at.getD now ≤ B :=
      fun a' ha' => hB a' (List.mem_cons_of_mem a ha')
    obtain ⟨aid, aty, asid, acwd, ast, astp⟩ := a
    cases ast with
    | none => exact ih hB' la0 h
    | some aStart =>
      have hBa : astp.getD now ≤ B :=
        hB _ (List.mem_cons_self _ _) (by intro hc; exact Option.noConfusion hc)
      show agentLastActivity rest now s w _ ≤ B
      simp only []
      by_cases hc : aStart ≥ w
      · rw [if_pos hc]
        exact ih hB' la0 h
      · rw [if_neg hc]
        cases astp with
        | some aStop =>
          simp only []
          by_cases hs2 : aStop ≤ s
          · rw [if_pos hs2]
            exact ih hB' la0 h
          · rw [if_neg hs2]
            refine ih hB' _ (max_le h (le_trans (min_le_left _ _) ?_))
            simpa using hBa
        | none =>
          refine ih hB' _ (max_le h (le_trans (min_le_left _ _) ?_))
          simpa using hBa

theorem agentLastActivity_degenerate (agents : List AgentRow) (now s w : ℚ)
    (hw : w ≤ s) :
    ∀ la0 : ℚ, s ≤ la0 → agentLastActivity agents now s w la0 = la0 := by
  induction agents with
  | nil => intro la0 _; rfl
  | cons a rest ih =>
    intro la0 hla
    obtain ⟨aid, aty, asid, acwd, ast, astp⟩ := a
    cases ast with
    | none => exact ih la0 hla
    | some aStart =>
      show agentLastActivity rest now s w _ = la0
      simp only []
      by_cases hc : aStart ≥ w
      · rw [if_pos hc]
        exact ih la0 hla
      · rw [if_neg hc]
        cases astp with
        | some aStop =>
          simp only []
          by_cases hs2 : aStop ≤ s
          · rw [if_pos hs2]
            exact ih la0 hla
          · rw [if_neg hs2]
            rw [max_eq_left (le_trans (le_trans (min_le_right _ _) hw) hla)]
            exact ih la0 hla
        | none =>
          simp only []
          rw [max_eq_left (le_trans (le_trans (min_le_right _ _) hw) hla)]
          exact ih la0 hla

theorem agentLastActivity_int (agents : List AgentRow) (now s w : ℚ)
    (hA : ∀ a ∈ agents, ∀ e, a.stopped_at = some e → IsIntQ e)
    (hnow : IsIntQ now) (hw : IsIntQ w) :
    ∀ la0 : ℚ, IsIntQ la0 → IsIntQ (agentLastActivity agents now s w la0) := by
  induction agents with
  | nil => intro la0 h; exact h
  | cons a rest ih =>
    intro la0 h
    have hA' : ∀ a' ∈ rest, ∀ e, a'.stopped_at = some e → IsIntQ e :=
      fun a' ha' => hA a' (List.mem_cons_of_mem a ha')
    obtain ⟨aid, aty, asid, acwd, ast, astp⟩ := a
    cases ast with
    | none => exact ih hA' la0 h
    | some aStart =>
      show IsIntQ (agentLastActivity rest now s w _)
      simp only []
      by_cases hc : aStart ≥ w
      · rw [if_pos hc]
        exact ih hA' la0 h
      · rw [if_neg hc]
        cases astp with
        | some aStop =>
          have hstop : IsIntQ aStop := hA _ (List.mem_cons_self _ _) aStop rfl
          simp only []
          by_cases hs2 : aStop ≤ s
          · rw [if_pos hs2]
            exact ih hA' la0 h
          · rw [if_neg hs2]
            exact ih hA' _ (h.max (hstop.min hw))
        | none => exact ih hA' _ (h.max (hnow.min hw))

theorem toolsSup_init_le (tools : List ToolRow) :
    ∀ init : ℚ, init ≤ toolsSup tools init := by
  induction tools with
  | nil => intro init; exact le_refl init
  | cons t rest ih =>
    intro init
    show init ≤ toolsSup rest _
    simp only []
    cases ht : toolEndOf t with
    | none => exact ih init
    | some e => exact le_trans (le_max_left init e) (ih _)

theorem toolsSup_mem_le (tools : List ToolRow) :
    ∀ init : ℚ, ∀ t ∈ tools, ∀ e, toolEndOf t = some e → e ≤ toolsSup tools init := by
  induction tools with
  | nil => intro init t ht; cases ht
  | cons t rest ih =>
    intro init t' ht' e he
    rcases List.mem_cons.mp ht' with rfl | hmem
    · show e ≤ toolsSup rest _
      simp only []
      rw [he]
      exact le_trans (le_max_right init e) (toolsSup_init_le rest _)
    · show e ≤ toolsSup rest _
      simp only []
      cases ht : toolEndOf t with
      | none => exact ih init t' hmem e he
      | some e2 => exact ih _ t' hmem e he

theorem agentsSup_init_le (agents : List AgentRow) (now : ℚ) :
    ∀ init : ℚ, init ≤ agentsSup agents now init := by
  induction agents with
  | nil => intro init; exact le_refl init
  | cons a rest ih =>
    intro init
    obtain ⟨aid, aty, asid, acwd, ast, astp⟩ := a
    cases ast with
    | none => exact ih init
    | some aStart =>
      show init ≤ agentsSup rest now _
      simp only []
      exact le_trans (le_max_left init _) (ih _)

theorem agentsSup_mem_le (agents : List AgentRow) (now : ℚ) :
    ∀ init : ℚ, ∀ a ∈ agents, a.started_at ≠ none →
      a.stopped_at.getD now ≤ agentsSup agents now init := by
  induction agents with
  | nil => intro init a ha; cases ha
  | cons a rest ih =>
    intro init a' ha' hst
    rcases List.mem_cons.mp ha' with rfl | hmem
    · obtain ⟨aid, aty, asid, acwd, ast, astp⟩ := a'
      cases ast with
      | none => exact absurd rfl hst
      | some aStart =>
        show _ ≤ agentsSup rest now _
        simp only []
        exact le_trans (le_max_right _ _) (agentsSup_init_le rest now _)
    · obtain ⟨aid, aty, asid, acwd, ast, astp⟩ := a
      cases ast with
      | none => exact ih init a' hmem hst
      | some aStart =>
        show _ ≤ agentsSup rest now _
        simp only []
        exact ih _ a' hmem hst

theorem specLastActivity_ge_t0 (t0 : ℚ) (tools : List ToolRow)
    (agents : List AgentRow) (now : ℚ) :
    t0 ≤ specLastActivity t0 tools agents now :=
  le_trans (toolsSup_init_le tools t0) (agentsSup_init_le agents now _)

/-- The span bound on the Gantt loop, under whole-second granularity:
when some instant `E` dominates every tool end and every agent end,
`t` lower-bounds every remaining parseable prompt time, and all the
relevant instants are whole numbers, the loop adds at most
`max 0 (E - t)` to the running offset. -/
theorem ganttAux_span (tools : List ToolRow) (agents : List AgentRow)
    (now : ℚ) (E : ℚ)
    (hE_tool : ∀ t ∈ tools, ∀ e, toolEndOf t = some e → e ≤ E)
    (hE_agent : ∀ a ∈ agents, a.started_at ≠ none → a.stopped_at.getD now ≤ E)
    (hT_int : ∀ t ∈ tools, ∀ e, toolEndOf t = some e → IsIntQ e)
    (hA_int : ∀ a ∈ agents, ∀ e, a.stopped_at = some e → IsIntQ e)
    (hnow : IsIntQ now) :
    ∀ (l : List PromptRow) (cum t : ℚ),
      List.Sorted prLe l →
      IsIntQ t →
      (∀ p ∈ l, ∀ q, p.created_at = some q → t ≤ q ∧ IsIntQ q) →
      (ganttAux tools agents now l cum).2 ≤ cum + max 0 (E - t) := by
  intro l
  induction l with
  | nil =>
    intro cum t _ _ _
    have h0 : (0 : ℚ) ≤ max 0 (E - t) := le_max_left 0 _
    show cum ≤ cum + max 0 (E - t)
    linarith
  | cons p rest ih =>
    intro cum t hsort hint hall
    obtain ⟨ptext, pts⟩ := p
    cases pts with
    | none =>
      rw [ganttAux_cons_none]
      exact ih cum t hsort.of_cons hint
        (fun p' hp' => hall p' (List.mem_cons_of_mem _ hp'))
    | some s =>
      obtain ⟨hts, hsint⟩ := hall _ (List.mem_cons_self _ _) s rfl
      cases rest with
      | nil =>
        rw [ganttAux_cons_some]
        simp only []
        set la : ℚ := agentLastActivity agents now s now
          (toolLastActivity tools s now s) with hla
        by_cases hskip : la = s
        · rw [if_pos hskip]
          have h0 : (0 : ℚ) ≤ max 0 (E - t) := le_max_left 0 _
          show cum ≤ cum + max 0 (E - t)
          linarith
        · rw [if_neg hskip]
          show cum + max 1 (min la now - s) ≤ cum + max 0 (E - t)
          have hlas : s ≤ la := by
            rw [hla]
            exact le_trans (toolLastActivity_init_le tools s now s)
              (agentLastActivity_init_le agents now s now _)
          have hlagt : s < la := lt_of_le_of_ne hlas (fun h => hskip h.symm)
          have hnowgt : s < now := by
            by_contra hle
            push_neg at hle
            apply hskip
            rw [hla, toolLastActivity_degenerate tools s now hle s,
              agentLastActivity_degenerate agents now s now hle s (le_refl s)]
          have hlaE : la ≤ max s E := by
            rw [hla]
            refine agentLastActivity_le agents now s now (max s E)
              (fun a ha hst => le_trans (hE_agent a ha hst) (le_max_right s E)) _
              (toolLastActivity_le tools s now (max s E)
                (fun t' ht' e he => le_trans (hE_tool t' ht' e he) (le_max_right s E))
                s (le_max_left s E))
          have hlaE2 : la ≤ E := by
            rcases max_cases s E with ⟨hm, _⟩ | ⟨hm, _⟩
            · rw [hm] at hlaE
              exact absurd (lt_of_lt_of_le hlagt hlaE) (lt_irrefl s)
            · rw [hm] at hlaE
              exact hlaE
          have hlaint : IsIntQ la := by
            rw [hla]
            exact agentLastActivity_int agents now s now hA_int hnow hnow _
              (toolLastActivity_int tools s now hT_int s hsint)
          have hmin : s < min la now := lt_min hlagt hnowgt
          have hd : max 1 (min la now - s) = min la now - s :=
            max_eq_right (((hlaint.min hnow).sub hsint).one_le (by linarith))
          rw [hd]
          have h1 : min la now ≤ la := min_le_left _ _
          have h2 : E - t ≤ max 0 (E - t) := le_max_right 0 _
          linarith
      | cons q rest2 =>
        obtain ⟨qtext, qts⟩ := q
        cases qts with
        | none =>
          have h0 := List.rel_of_sorted_cons hsort
            ⟨qtext, none⟩ (List.mem_cons_self _ _)
          exact absurd h0 (fun h => h)
        | some wq =>
          have hswq : s ≤ wq :=
            List.rel_of_sorted_cons hsort _ (List.mem_cons_self _ _)
          obtain ⟨-, hwqint⟩ := hall _
            (List.mem_cons_of_mem _ (List.mem_cons_self _ _)) wq rfl
          have hsort2 : List.Sorted prLe
              (({ prompt := qtext, created_at := some wq } : PromptRow) :: rest2) :=
            hsort.of_cons
          have hrest_all : ∀ p' ∈
              ({ prompt := qtext, created_at := some wq } : PromptRow) :: rest2,
              ∀ q', p'.created_at = some q' → wq ≤ q' ∧ IsIntQ q' := by
            intro p' hp' q' hq'
            refine ⟨?_, (hall p' (List.mem_cons_of_mem _ hp') q' hq').2⟩
            rcases List.mem_cons.mp hp' with rfl | hp2
            · exact le_of_eq (Option.some.inj hq')
            · have h2 := List.rel_of_sorted_cons hsort2 p' hp2
              unfold prLe at h2
              rw [hq'] at h2
              exact h2
          rw [ganttAux_cons_some]
          simp only []
          set la : ℚ := agentLastActivity agents now s wq
            (toolLastActivity tools s wq s) with hla
          by_cases hskip : la = s
          · rw [if_pos hskip]
            refine le_trans (ih cum wq hsort2 hwqint hrest_all) ?_
            have hmax : max 0 (E - wq) ≤ max 0 (E - t) := by
              apply max_le (le_max_left 0 _)
              have h1 : E - wq ≤ E - t := by linarith
              exact le_trans h1 (le_max_right 0 _)
            linarith
          · rw [if_neg hskip]
            show (ganttAux tools agents now
                (({ prompt := qtext, created_at := some wq } : PromptRow) :: rest2)
                (cum + max 1 (min la wq - s))).2 ≤ cum + max 0 (E - t)
            have hlas : s ≤ la := by
              rw [hla]
              exact le_trans (toolLastActivity_init_le tools s wq s)
                (agentLastActivity_init_le agents now s wq _)
            have hlagt : s < la := lt_of_le_of_ne hlas (fun h => hskip h.symm)
            have hwqgt : s < wq := by
              rcases lt_or_eq_of_le hswq with h | h
              · exact h
              · exfalso
                apply hskip
                rw [hla, toolLastActivity_degenerate tools s wq (le_of_eq h.symm) s,
                  agentLastActivity_degenerate agents now s wq (le_of_eq h.symm) s
                    (le_refl s)]
            have hlaE : la ≤ max s E := by
              rw [hla]
              refine agentLastActivity_le agents now s wq (max s E)
                (fun a ha hst => le_trans (hE_agent a ha hst) (le_max_right s E)) _
                (toolLastActivity_le tools s wq (max s E)
                  (fun t' ht' e he =>
                    le_trans (hE_tool t' ht' e he) (le_max_right s E))
                  s (le_max_left s E))
            have hlaE2 : la ≤ E := by
              rcases max_cases s E with ⟨hm, _⟩ | ⟨hm, _⟩
              · rw [hm] at hlaE
                exact absurd (lt_of_lt_of_le hlagt hlaE) (lt_irrefl s)
              · rw [hm] at hlaE
                exact hlaE
            have hlaint : IsIntQ la := by
              rw [hla]
              exact agentLastActivity_int agents now s wq hA_int hnow hwqint _
                (toolLastActivity_int tools s wq hT_int s hsint)
            have hmin : s < min la wq := lt_min hlagt hwqgt
            have hd : max 1 (min la wq - s) = min la wq - s :=
              max_eq_right (((hlaint.min hwqint).sub hsint).one_le (by linarith))
            rw [hd]
            refine le_trans
              (ih (cum + (min la wq - s)) wq hsort2 hwqint hrest_all) ?_
            by_cases hEwq : wq ≤ E
            · rw [max_eq_right (by linarith : (0 : ℚ) ≤ E - wq)]
              have h1 : min la wq ≤ wq := min_le_right _ _
              have h2 : E - t ≤ max 0 (E - t) := le_max_right 0 _
              linarith
            · push_neg at hEwq
              rw [max_eq_left (by linarith : E - wq ≤ (0 : ℚ))]
              have h1 : min la wq ≤ la := min_le_left _ _
              have h2 : E - t ≤ max 0 (E - t) := le_max_right 0 _
              linarith

theorem findSome_created_mem (l : List PromptRow) (t0 : ℚ)
    (h : l.findSome? (fun p => p.created_at) = some t0) :
    ∃ p ∈ l, p.created_at = some t0 := by
  induction l with
  | nil => exact Option.noConfusion h
  | cons p rest ih =>
    obtain ⟨ptext, pts⟩ := p
    cases pts with
    | none =>
      obtain ⟨p2, hp2, hc⟩ := ih h
      exact ⟨p2, List.mem_cons_of_mem _ hp2, hc⟩
    | some s =>
      have h2 : s = t0 := Option.some.inj h
      exact ⟨⟨ptext, some s⟩, List.mem_cons_self _ _, by rw [h2]⟩

theorem findSome_created_le (l : List PromptRow) (hs : List.Sorted prLe l)
    (t0 : ℚ) (h : l.findSome? (fun p => p.created_at) = some t0) :
    ∀ p ∈ l, ∀ q, p.created_at = some q → t0 ≤ q := by
  induction l with
  | nil => exact Option.noConfusion h
  | cons p rest ih =>
    obtain ⟨ptext, pts⟩ := p
    cases pts with
    | none =>
      intro p2 hp2 q hq
      rcases List.mem_cons.mp hp2 with rfl | hmem
      · exact Option.noConfusion hq
      · exact ih hs.of_cons h p2 hmem q hq
    | some s =>
      obtain rfl : s = t0 := Option.some.inj h
      intro p2 hp2 q hq
      rcases List.mem_cons.mp hp2 with rfl | hmem
      · exact le_of_eq (Option.some.inj hq)
      · have h2 := List.rel_of_sorted_cons hs p2 hmem
        unfold prLe at h2
        rw [hq] at h2
        exact h2

def promptW : PromptRow :=
  { prompt := "w"
    created_at := some 0 }

def toolW : ToolRow :=
  { tool_name := "Read"
    tool_label := "Read"
    created_at := some 0
    duration_ms := some 2000
    is_error := false
    cwd := "" }

def promptC0 : PromptRow :=
  { prompt := "a"
    created_at := some 0 }

def promptC1 : PromptRow :=
  { prompt := "b"
    created_at := some (1/2) }

def toolC : ToolRow :=
  { tool_name := "Read"
    tool_label := "Read"
    created_at := some (1/5)
    duration_ms := none
    is_error := false
    cwd := "" }

/-- C5: Across the ordered Gantt segments, `offset_s` is non-decreasing
and `total_active_s` equals the sum of all segment durations,
unconditionally. The claim's third part — `total_active_s` bounded by
the wall-clock span from the first prompt to the last activity — holds
under whole-second granularity of every prompt time, tool end, agent
stop and the evaluation time; it fails in general because the
`max(1.0, ...)` duration floor can exceed a sub-second window (see the
counterexample). -/
theorem C5_gantt (prompts : List PromptRow) (tools : List ToolRow)
    (agents : List AgentRow) (now : ℚ) :
    List.Pairwise (fun a b : GanttSeg => a.offset_s ≤ b.offset_s)
        (buildGanttSegments prompts tools agents now).1 ∧
    (buildGanttSegments prompts tools agents now).2
      = ((buildGanttSegments prompts tools agents now).1.map
          (fun s => s.duration_s)).sum ∧
    (∀ t0 : ℚ,
      (∀ p ∈ prompts, ∀ q, p.created_at = some q → IsIntQ q) →
      (∀ t ∈ tools, ∀ e, toolEndOf t = some e → IsIntQ e) →
      (∀ a ∈ agents, ∀ e, a.stopped_at = some e → IsIntQ e) →
      IsIntQ now →
      firstPromptTime prompts = some t0 →
      (buildGanttSegments prompts tools agents now).2
        ≤ specLastActivity t0 tools agents now - t0) := by
  unfold buildGanttSegments
  by_cases hnil : sortedPrompts prompts = []
  · rw [if_pos hnil]
    refine ⟨List.Pairwise.nil, by simp, ?_⟩
    intro t0 _ _ _ _ hfp
    unfold firstPromptTime at hfp
    rw [hnil] at hfp
    exact Option.noConfusion hfp
  · rw [if_neg hnil]
    obtain ⟨hb1, -, hb3⟩ := ganttAux_basic tools agents now (sortedPrompts prompts) 0
    refine ⟨hb3, by rw [hb1, zero_add], ?_⟩
    intro t0 hP hT hA hnow hfp
    unfold firstPromptTime at hfp
    have hsorted : List.Sorted prLe (sortedPrompts prompts) :=
      List.sorted_insertionSort prLe prompts
    have ht0int : IsIntQ t0 := by
      obtain ⟨p, hp, hc⟩ := findSome_created_mem _ t0 hfp
      exact hP p ((List.perm_insertionSort prLe prompts).mem_iff.mp hp) t0 hc
    have hall : ∀ p ∈ sortedPrompts prompts, ∀ q, p.created_at = some q →
        t0 ≤ q ∧ IsIntQ q := by
      intro p hp q hq
      exact ⟨findSome_created_le _ hsorted t0 hfp p hp q hq,
        hP p ((List.perm_insertionSort prLe prompts).mem_iff.mp hp) q hq⟩
    have hE_tool : ∀ t ∈ tools, ∀ e, toolEndOf t = some e →
        e ≤ specLastActivity t0 tools agents now := by
      intro t ht e he
      exact le_trans (toolsSup_mem_le tools t0 t ht e he)
        (agentsSup_init_le agents now (toolsSup tools t0))
    have hE_agent : ∀ a ∈ agents, a.started_at ≠ none →
        a.stopped_at.getD now ≤ specLastActivity t0 tools agents now :=
      fun a ha hst => agentsSup_mem_le agents now (toolsSup tools t0) a ha hst
    have hmain := ganttAux_span tools agents now
      (specLastActivity t0 tools agents now) hE_tool hE_agent hT hA hnow
      (sortedPrompts prompts) 0 t0 hsorted ht0int hall
    have ht0E : t0 ≤ specLastActivity t0 tools agents now :=
      specLastActivity_ge_t0 t0 tools agents now
    rw [max_eq_right (by linarith :
        (0 : ℚ) ≤ specLastActivity t0 tools agents now - t0),
      zero_add] at hmain
    exact hmain

/-- C5 witness: a whole-second session — one prompt at `t = 0`, one tool
at `t = 0` lasting 2000 ms, no agents, `now = 100`. The theorem's third
part applies and bounds `total_active_s` by the span. -/
theorem C5_witness :
    (buildGanttSegments [promptW] [toolW] [] 100).2
      ≤ specLastActivity 0 [toolW] [] 100 - 0 := by
  refine (C5_gantt [promptW] [toolW] [] 100).2.2 0 ?_ ?_ ?_ ?_ ?_
  · intro p hp q hq
    rw [List.mem_singleton] at hp
    subst hp
    exact ⟨0, by rw [← Option.some.inj hq]; norm_num⟩
  · intro t ht e he
    rw [List.mem_singleton] at ht
    subst ht
    exact ⟨2, by rw [← Option.some.inj he]; norm_num [toolW]⟩
  · intro a ha
    exact absurd ha (List.not_mem_nil a)
  · exact ⟨100, by norm_num⟩
  · rfl

/-- C5 counterexample to the claim's span bound as stated (for every
session): prompts at `t = 0` and `t = 1/2`, a tool at `t = 1/5` with no
duration, no agents, `now = 100`. The first window `[0, 1/2)` has last
activity `1/5`, so its raw duration `1/5` is floored to `1`; the second
window is skipped. `total_active_s = 1` exceeds the wall-clock span
`1/5 - 0` from the first prompt to the last activity. -/
theorem C5_counterexample :
    firstPromptTime [promptC0, promptC1] = some 0 ∧
    ¬ ((buildGanttSegments [promptC0, promptC1] [toolC] [] 100).2
        ≤ specLastActivity 0 [toolC] [] 100 - 0) := by
  constructor
  · norm_num [firstPromptTime, sortedPrompts, List.insertionSort,
      List.orderedInsert, prLe, tsLe, promptC0, promptC1, List.findSome?]
  · have h1 : (buildGanttSegments [promptC0, promptC1] [toolC] [] 100).2 = 1 := by
      norm_num [buildGanttSegments, sortedPrompts, List.insertionSort,
        List.orderedInsert, prLe, tsLe, ganttAux, toolLastActivity,
        agentLastActivity, List.foldl, promptC0, promptC1, toolC,
        min_def, max_def]
      rw [if_neg (List.cons_ne_nil _ _)]
    have h2 : specLastActivity 0 [toolC] [] 100 = 1/5 := by
      norm_num [specLastActivity, toolsSup, agentsSup, toolEndOf,
        List.foldl, toolC, max_def]
    rw [h1, h2]
    norm_num

end AgentTop
